import Mathlib

/-!
# Verification of the doc-merger core pipeline

A shallow embedding of the markdown merger's core components
(`src/utils/helpers.py`, `src/core/processor.py`, `src/core/analyzer.py`,
`src/core/merger.py`) together with proofs settling the specification
claims about them.

Strings are modelled as `List Char`.  Python regular-expression transforms
are embedded as explicit character scanners that reproduce the engine's
leftmost, greedy-with-backtracking behaviour on the concrete patterns the
code uses.
-/

set_option maxHeartbeats 1000000

namespace DocMerger

/-- Python `\s` / `str.strip()` whitespace, restricted to the Latin-1 range
(the only characters any pipeline input in this development uses). -/
def isPySpace (c : Char) : Bool :=
  c = ' ' || c = '\t' || c = '\n' || c = '\r' || c = '\x0b' || c = '\x0c' ||
  c = '\x1c' || c = '\x1d' || c = '\x1e' || c = '\x1f' || c = '\x85' || c = '\xa0'

/-- Remove trailing Python whitespace (right half of `str.strip()`). -/
def stripTrailing (l : List Char) : List Char :=
  (l.reverse.dropWhile isPySpace).reverse

/-- Python `str.strip()` with no arguments. -/
def pyStrip (l : List Char) : List Char :=
  (stripTrailing l).dropWhile isPySpace

/-- Python `str.lstrip('\n')`. -/
def lstripNewlines (l : List Char) : List Char :=
  l.dropWhile (fun c => c = '\n')

/-- ASCII lowering, modelling `str.lower()` on the identifiers, paths and
glob patterns this code base manipulates. -/
def pyLower (l : List Char) : List Char :=
  l.map Char.toLower

/-- `helpers.extract_front_matter`: scan `lines[1:]` for the first line whose
`strip()` equals `---`, reporting its (1-based) index into the full line
list. -/
def findDelimFrom : List (List Char) → Nat → Option Nat
  | [], _ => none
  | l :: ls, i => if pyStrip l = "---".data then some i else findDelimFrom ls (i + 1)

/-- `helpers.extract_front_matter`.  Returns `(front_matter, remaining)`:
no front matter unless the content starts with `---` and some later line
strips to `---`; otherwise the text between the delimiter lines and the
text after the closing line with leading newlines stripped. -/
def extract_front_matter (content : List Char) : Option (List Char) × List Char :=
  if "---".data.isPrefixOf content then
    let lines := content.splitOn '\n'
    match findDelimFrom lines.tail 1 with
    | none => (none, content)
    | some endIdx =>
      (some (List.intercalate ['\n'] ((lines.drop 1).take (endIdx - 1))),
       lstripNewlines (List.intercalate ['\n'] (lines.drop (endIdx + 1))))
  else (none, content)

/-- The spec's literal description of front-matter extraction, for
comparison with the implementation: the remaining text is *exactly* the
text after the closing delimiter line (no newline stripping). -/
def extract_front_matter_spec (content : List Char) : Option (List Char) × List Char :=
  if "---".data.isPrefixOf content then
    let lines := content.splitOn '\n'
    match findDelimFrom lines.tail 1 with
    | none => (none, content)
    | some endIdx =>
      (some (List.intercalate ['\n'] ((lines.drop 1).take (endIdx - 1))),
       List.intercalate ['\n'] (lines.drop (endIdx + 1)))
  else (none, content)

/-- The clamp applied by `helpers.adjust_header_levels`:
`max(1, min(6, current_level + offset))`. -/
def clampLevel (n : Nat) (offset : Int) : Nat :=
  (max 1 (min 6 ((n : Int) + offset))).toNat

/-- Scanner state for the two `^(#{1,6})…$` multiline patterns:
at a line start, counting a hash run, inside the whitespace run of a
match, or copying the remainder of a line that can no longer match. -/
inductive ScanState where
  | lineStart
  | hashes (k : Nat)
  | inWs
  | copyLine
deriving DecidableEq

/-- `re.sub(r'^(#{1,6})(\s+.*)$', <clamp rewrite>, content, flags=re.MULTILINE)`.
A match needs 1–6 `#` at a line start followed by a whitespace character;
the greedy `\s+` swallows the whole whitespace run (it may cross
newlines), `.*` the rest of the line where that run ends, and only the
hash run is rewritten — everything else is copied verbatim.  A line start
inside a swallowed whitespace run is not rescanned. -/
def adjGo (offset : Int) : ScanState → List Char → List Char
  | ScanState.lineStart, [] => []
  | ScanState.lineStart, c :: cs =>
      if c = '#' then adjGo offset (ScanState.hashes 1) cs
      else if c = '\n' then c :: adjGo offset ScanState.lineStart cs
      else c :: adjGo offset ScanState.copyLine cs
  | ScanState.hashes k, [] => List.replicate k '#'
  | ScanState.hashes k, c :: cs =>
      if c = '#' then adjGo offset (ScanState.hashes (k + 1)) cs
      else if k ≤ 6 ∧ isPySpace c then
        List.replicate (clampLevel k offset) '#' ++ c :: adjGo offset ScanState.inWs cs
      else
        List.replicate k '#' ++
          (if c = '\n' then c :: adjGo offset ScanState.lineStart cs
           else c :: adjGo offset ScanState.copyLine cs)
  | ScanState.inWs, [] => []
  | ScanState.inWs, c :: cs =>
      if isPySpace c then c :: adjGo offset ScanState.inWs cs
      else c :: adjGo offset ScanState.copyLine cs
  | ScanState.copyLine, [] => []
  | ScanState.copyLine, c :: cs =>
      if c = '\n' then c :: adjGo offset ScanState.lineStart cs
      else c :: adjGo offset ScanState.copyLine cs

/-- `helpers.adjust_header_levels`. -/
def adjust_header_levels (content : List Char) (offset : Int) : List Char :=
  if offset = 0 then content else adjGo offset ScanState.lineStart content

/-- True when no line of the remaining content begins with `#`
(`atStart` says whether the scan sits at a line start), i.e. no line
begins with a header marker. -/
def noHashAfter (atStart : Bool) : List Char → Bool
  | [] => true
  | c :: cs => (!atStart || !(c = '#')) && noHashAfter (c = '\n') cs

/-- Scanner state for header extraction; in `inWsH`/`inText` the hash-run
length and (for the backtracking rule / the captured text) the characters
seen so far are carried along (`acc` reversed). -/
inductive ExtState where
  | lineStart
  | hashes (k : Nat)
  | inWsH (k : Nat) (ws : List Char)
  | inText (k : Nat) (acc : List Char)
  | skipLine
deriving DecidableEq

/-- `re.finditer(r'^(#{1,6})\s+(.+)$', content, re.MULTILINE)` as used by
`helpers.extract_headers`: like the adjuster's pattern, except `(.+)` must
capture at least one character, so when the whitespace run reaches the end
of the content the engine backtracks the greedy `\s+` — the match survives
iff the run has a non-newline character at an index ≥ 1, and then the
captured text is pure whitespace, so `group(2).strip()` is empty.  Each
hit records `(level, group(2).strip())`, kept when `level ≤ maxDepth`. -/
def extGo (maxDepth : Nat) : ExtState → List Char → List (Nat × List Char)
  | ExtState.lineStart, [] => []
  | ExtState.lineStart, c :: cs =>
      if c = '#' then extGo maxDepth (ExtState.hashes 1) cs
      else if c = '\n' then extGo maxDepth ExtState.lineStart cs
      else extGo maxDepth ExtState.skipLine cs
  | ExtState.hashes _, [] => []
  | ExtState.hashes k, c :: cs =>
      if c = '#' then extGo maxDepth (ExtState.hashes (k + 1)) cs
      else if k ≤ 6 ∧ isPySpace c then extGo maxDepth (ExtState.inWsH k [c]) cs
      else if c = '\n' then extGo maxDepth ExtState.lineStart cs
      else extGo maxDepth ExtState.skipLine cs
  | ExtState.inWsH k ws, [] =>
      if 2 ≤ ws.length - (ws.reverse.takeWhile (fun x => x = '\n')).length then
        if k ≤ maxDepth then [(k, [])] else []
      else []
  | ExtState.inWsH k ws, c :: cs =>
      if isPySpace c then extGo maxDepth (ExtState.inWsH k (ws ++ [c])) cs
      else extGo maxDepth (ExtState.inText k [c]) cs
  | ExtState.inText k acc, [] =>
      if k ≤ maxDepth then [(k, pyStrip acc.reverse)] else []
  | ExtState.inText k acc, c :: cs =>
      if c = '\n' then
        (if k ≤ maxDepth then [(k, pyStrip acc.reverse)] else [])
          ++ extGo maxDepth ExtState.lineStart cs
      else extGo maxDepth (ExtState.inText k (c :: acc)) cs
  | ExtState.skipLine, [] => []
  | ExtState.skipLine, c :: cs =>
      if c = '\n' then extGo maxDepth ExtState.lineStart cs
      else extGo maxDepth ExtState.skipLine cs

/-- `helpers.extract_headers`. -/
def extract_headers (content : List Char) (maxDepth : Nat) : List (Nat × List Char) :=
  extGo maxDepth ExtState.lineStart content

/-- Emit a pending newline run: `re.sub(r'\n{m+2,}', '\n' * (m+1), …)`
replaces every maximal newline run of length ≥ `m + 2` by `m + 1`
newlines and leaves shorter runs alone. -/
def emitRun (m pending : Nat) : List Char :=
  if m + 2 ≤ pending then List.replicate (m + 1) '\n' else List.replicate pending '\n'

/-- Single pass of the blank-run collapse, carrying the length of the
newline run read so far. -/
def collapseGo (m : Nat) (pending : Nat) : List Char → List Char
  | [] => emitRun m pending
  | c :: cs =>
      if c = '\n' then collapseGo m (pending + 1) cs
      else emitRun m pending ++ c :: collapseGo m 0 cs

/-- `re.sub(r'\n{m+2,}', '\n' * (m+1), content)` from
`helpers.normalize_whitespace`. -/
def collapseBlankRuns (m : Nat) (content : List Char) : List Char :=
  collapseGo m 0 content

/-- No run of `m + 2` consecutive newlines occurs in `l`: the collapse
pattern `\n{m+2,}` has no match in `l`. -/
def noLongRun (m : Nat) (l : List Char) : Prop :=
  ¬ (List.replicate (m + 2) '\n' <:+: l)

/-- `helpers.normalize_whitespace`: collapse long blank runs, `strip()`,
append a single trailing newline. -/
def normalize_whitespace (content : List Char) (maxConsec : Nat) : List Char :=
  pyStrip (collapseBlankRuns maxConsec content) ++ ['\n']

/-- `str.replace('\r\n', '\n')` (leftmost, non-overlapping). -/
def replaceCRLF : List Char → List Char
  | [] => []
  | '\r' :: '\n' :: rest => '\n' :: replaceCRLF rest
  | c :: rest => c :: replaceCRLF rest

/-- `helpers.normalize_line_endings`. -/
def normalize_line_endings (content : List Char) (style : List Char) : List Char :=
  let lf := (replaceCRLF content).map fun c => if c = '\r' then '\n' else c
  if pyLower style = "crlf".data then
    lf.flatMap fun c => if c = '\n' then ['\r', '\n'] else [c]
  else lf

/-- `helpers.generate_anchor`: drop characters that are neither word
characters, whitespace nor `-`; then turn each whitespace run into one
hyphen. -/
def isWordChar (c : Char) : Bool :=
  c.isAlphanum || c = '_'

def collapseSpacesToHyphen (inRun : Bool) : List Char → List Char
  | [] => []
  | c :: cs =>
    if isPySpace c then
      if inRun then collapseSpacesToHyphen true cs
      else '-' :: collapseSpacesToHyphen true cs
    else c :: collapseSpacesToHyphen false cs

def generate_anchor (text : List Char) : List Char :=
  collapseSpacesToHyphen false
    ((pyLower text).filter fun c => isWordChar c || isPySpace c || c = '-')

/-! ## Glob matching (`fnmatch` as used by `helpers.matches_patterns`) -/

/-- A compiled glob element: literal, `?`, `*`, or a (possibly negated)
character class of ranges. -/
inductive GlobItem where
  | lit (c : Char)
  | one
  | many
  | cls (neg : Bool) (items : List (Char × Char))
deriving DecidableEq

/-- Class body parsing: `a-b` (with more to follow) is a range, anything
else is a literal character. -/
def parseClassItems : List Char → List (Char × Char)
  | a :: '-' :: b :: rest => (a, b) :: parseClassItems rest
  | c :: rest => (c, c) :: parseClassItems rest
  | [] => []

def classMatches (items : List (Char × Char)) (d : Char) : Bool :=
  items.any fun r => decide (r.1 ≤ d) && decide (d ≤ r.2)

/-- Shared tail of class recognition: given the negation flag, a possible
literal leading `]`, and the characters after it, find the closing `]`;
`none` when it is missing (unclosed bracket). -/
def classCore (neg : Bool) (lead r2 : List Char) : Option (Bool × List Char × List Char) :=
  if (r2.dropWhile (fun c => c ≠ ']')).isEmpty then none
  else
    some (neg, lead ++ r2.takeWhile (fun c => c ≠ ']'),
      (r2.dropWhile (fun c => c ≠ ']')).tail)

/-- After an opening `[`: recognize the optional `!`, a literal `]` right
after it, and the closing `]`.  Returns `(negated, class body, rest after
the closing bracket)`, or `none` when the bracket is unclosed. -/
def splitClass (rest : List Char) : Option (Bool × List Char × List Char) :=
  if rest.head? = some '!' then
    if rest.tail.head? = some ']' then classCore true [']'] rest.tail.tail
    else classCore true [] rest.tail
  else
    if rest.head? = some ']' then classCore false [']'] rest.tail
    else classCore false [] rest

/-- Compile a glob pattern: `*`, `?`, `[...]` (optionally negated by a
leading `!`, a `]` right after the opening treated as a literal member,
an unclosed `[` treated as a literal character), everything else literal —
the cases `fnmatch.translate` distinguishes.  The fuel argument (each step
consumes one unit while the pattern shrinks by at least one character, so
`pattern.length` units always suffice) keeps the recursion structural. -/
def parseGlobF : Nat → List Char → List GlobItem
  | 0, _ => []
  | _ + 1, [] => []
  | f + 1, '*' :: rest => GlobItem.many :: parseGlobF f rest
  | f + 1, '?' :: rest => GlobItem.one :: parseGlobF f rest
  | f + 1, '[' :: rest =>
      match splitClass rest with
      | none => GlobItem.lit '[' :: parseGlobF f rest
      | some (neg, body, tl) => GlobItem.cls neg (parseClassItems body) :: parseGlobF f tl
  | f + 1, c :: rest => GlobItem.lit c :: parseGlobF f rest

def parseGlob (pattern : List Char) : List GlobItem :=
  parseGlobF pattern.length pattern

/-- Glob matching against a compiled pattern (semantics of the regex
`fnmatch.translate` produces: `*` ↦ `.*`, `?` ↦ `.`, classes ↦ `[...]`,
full-string anchoring).  Each step consumes one unit of fuel while
`pattern.length + string.length` strictly decreases, so the wrapper's fuel
is never exhausted. -/
def globMatchF : Nat → List GlobItem → List Char → Bool
  | 0, ps, s => ps.isEmpty && s.isEmpty
  | _ + 1, [], s => s.isEmpty
  | f + 1, GlobItem.many :: ps, s =>
      globMatchF f ps s ||
        (match s with
         | [] => false
         | _ :: s' => globMatchF f (GlobItem.many :: ps) s')
  | f + 1, GlobItem.one :: ps, s =>
      match s with
      | [] => false
      | _ :: s' => globMatchF f ps s'
  | f + 1, GlobItem.lit c :: ps, s =>
      match s with
      | [] => false
      | d :: s' => c = d && globMatchF f ps s'
  | f + 1, GlobItem.cls neg items :: ps, s =>
      match s with
      | [] => false
      | d :: s' => (classMatches items d != neg) && globMatchF f ps s'

def globMatch (ps : List GlobItem) (s : List Char) : Bool :=
  globMatchF (ps.length + s.length + 1) ps s

/-- `fnmatch.fnmatch` on POSIX (no case folding of its own; the caller
lowercases both sides). -/
def fnmatch (name pattern : List Char) : Bool :=
  globMatch (parseGlob pattern) name

/-- `helpers.matches_patterns`. -/
def matches_patterns (filename : List Char) (patterns : List (List Char)) : Bool :=
  patterns.any fun p => fnmatch (pyLower filename) (pyLower p)

/-! ## Natural sort key (`helpers.natural_sort_key`) -/

def digitsToNat (ds : List Char) : Nat :=
  ds.foldl (fun n c => n * 10 + (c.toNat - '0'.toNat)) 0

/-- State machine underlying `natural_sort_key`: `inNum` says whether the
run being accumulated (in `acc`, reversed) is a digit run. -/
def natKeyGo (inNum : Bool) (acc : List Char) : List Char → List (List Char ⊕ Nat)
  | [] =>
      if inNum then [Sum.inr (digitsToNat acc.reverse), Sum.inl []]
      else [Sum.inl (pyLower acc.reverse)]
  | c :: cs =>
      if inNum then
        if c.isDigit then natKeyGo true (c :: acc) cs
        else Sum.inr (digitsToNat acc.reverse) :: natKeyGo false [c] cs
      else
        if c.isDigit then Sum.inl (pyLower acc.reverse) :: natKeyGo true [c] cs
        else natKeyGo false (c :: acc) cs

/-- `helpers.natural_sort_key`: `re.split(r'(\d+)', s)` alternates maximal
non-digit and digit runs (the first and last components are text runs,
possibly empty); digit runs become their numeric value, text runs are
lowercased. -/
def natural_sort_key (s : List Char) : List (List Char ⊕ Nat) :=
  natKeyGo false [] s

/-- Three-way comparison on `Nat`. -/
def cmpNat (a b : Nat) : Ordering :=
  if a < b then Ordering.lt else if b < a then Ordering.gt else Ordering.eq

/-- Python string comparison: lexicographic by code point. -/
def cmpCharList : List Char → List Char → Ordering
  | [], [] => Ordering.eq
  | [], _ :: _ => Ordering.lt
  | _ :: _, [] => Ordering.gt
  | a :: as_, b :: bs =>
    match cmpNat a.toNat b.toNat with
    | Ordering.eq => cmpCharList as_ bs
    | o => o

/-- Comparison of one natural-key component.  Genuine keys alternate text
and number components in lockstep, so the mixed cases never arise between
two keys produced by `natural_sort_key`; they are given a fixed order to
keep the comparator total. -/
def cmpKeyPart : (List Char ⊕ Nat) → (List Char ⊕ Nat) → Ordering
  | Sum.inl a, Sum.inl b => cmpCharList a b
  | Sum.inr a, Sum.inr b => cmpNat a b
  | Sum.inl _, Sum.inr _ => Ordering.lt
  | Sum.inr _, Sum.inl _ => Ordering.gt

/-- Python list comparison: lexicographic, shorter prefix first. -/
def cmpKeyList : List (List Char ⊕ Nat) → List (List Char ⊕ Nat) → Ordering
  | [], [] => Ordering.eq
  | [], _ :: _ => Ordering.lt
  | _ :: _, [] => Ordering.gt
  | a :: as_, b :: bs =>
    match cmpKeyPart a b with
    | Ordering.eq => cmpKeyList as_ bs
    | o => o

/-! ## Configuration (`utils/config.MergeConfig`)

Fields never read by the embedded components (`fix_relative_links`,
`output_encoding`, `create_backup`, `extract_keywords`) are omitted; the
embedding covers runs with keyword extraction disabled (its default) and
does not model the filesystem backup step, whose only effect is a
non-fatal warning. -/

structure MergeConfig where
  header_style : List Char
  include_file_path : Bool
  include_doc_index : Bool
  separator_style : List Char
  separator_blank_lines : Nat
  generate_toc : Bool
  toc_depth : Nat
  toc_style : List Char
  toc_position : List Char
  adjust_header_level : Int
  strip_front_matter : Bool
  normalize_whitespace : Bool
  max_consecutive_blanks : Nat
  detect_duplicates : Bool
  add_metadata : Bool
  add_semantic_markers : Bool
  add_chunk_hints : Bool
  include_patterns : List (List Char)
  exclude_patterns : List (List Char)
  recursive : Bool
  max_depth : Int
  sort_order : List Char
  sort_ascending : Bool
  line_ending : List Char

/-- The dataclass defaults of `MergeConfig`. -/
def default_config : MergeConfig where
  header_style := "## {name}".data
  include_file_path := false
  include_doc_index := true
  separator_style := "---".data
  separator_blank_lines := 2
  generate_toc := true
  toc_depth := 2
  toc_style := "links".data
  toc_position := "top".data
  adjust_header_level := 0
  strip_front_matter := true
  normalize_whitespace := true
  max_consecutive_blanks := 2
  detect_duplicates := true
  add_metadata := true
  add_semantic_markers := true
  add_chunk_hints := false
  include_patterns := ["*.md".data, "*.markdown".data]
  exclude_patterns := []
  recursive := true
  max_depth := -1
  sort_order := "alphabetical".data
  sort_ascending := true
  line_ending := "lf".data

/-! ## File records (`analyzer.FileInfo`)

`modified` is the timestamp as a comparable integer; `mtimeStr` carries its
`%Y-%m-%d` rendering (calendar formatting is not re-implemented).
`content` holds the file's bytes as read from disk; `none` models a file
whose read or processing raises. -/

structure FileInfo where
  path : List Char
  name : List Char
  stem : List Char
  size : Nat
  modified : Int
  mtimeStr : List Char
  content : Option (List Char)
deriving DecidableEq

/-! ## Content processor (`core/processor.py`) -/

/-- `pathlib.PurePath.stem`: the file name without its final suffix;
a suffix needs a `.` that is neither the first nor past the last
character. -/
def pathStem (name : List Char) : List Char :=
  let k := (name.reverse.takeWhile (fun c => c ≠ '.')).length
  if k < name.length ∧ 0 < name.length - k - 1 ∧ 1 ≤ k then
    name.take (name.length - k - 1)
  else name

structure ProcessedDocument where
  pathStr : List Char
  name : List Char
  stem : List Char
  original_content : List Char
  processed_content : List Char
  headers : List (Nat × List Char)
  front_matter : Option (List Char)
  file_size : Nat
  mtimeStr : List Char
  index : Nat
  total_count : Nat
deriving DecidableEq

/-- `ContentProcessor.process_document`: front matter, header shift,
whitespace normalization, line-ending normalization, then header
extraction (at `toc_depth`). -/
def process_document (cfg : MergeConfig) (f : FileInfo) (content : List Char)
    (index total : Nat) : ProcessedDocument :=
  let original := content
  let step1 := if cfg.strip_front_matter then extract_front_matter content else (none, content)
  let c1 := step1.2
  let c2 := if cfg.adjust_header_level ≠ 0 then adjust_header_levels c1 cfg.adjust_header_level
            else c1
  let c3 := if cfg.normalize_whitespace then normalize_whitespace c2 cfg.max_consecutive_blanks
            else c2
  let c4 := normalize_line_endings c3 cfg.line_ending
  { pathStr := f.path
    name := f.name
    stem := f.stem
    original_content := original
    processed_content := c4
    headers := extract_headers c4 cfg.toc_depth
    front_matter := step1.1
    file_size := f.size
    mtimeStr := f.mtimeStr
    index := index
    total_count := total }

/-- `str.format(name=...)` on a template whose only field is `{name}`. -/
def formatName : List Char → List Char → List Char
  | [], _ => []
  | c :: cs, nm =>
    if "{name}".data.isPrefixOf (c :: cs) then nm ++ formatName (cs.drop 5) nm
    else c :: formatName cs nm
  termination_by l _ => l.length
  decreasing_by
  · have := List.length_drop 5 cs
    simp only [List.length_cons]
    omega
  · simp

/-- `ContentProcessor.generate_document_header`. -/
def generate_document_header (cfg : MergeConfig) (doc : ProcessedDocument) : List Char :=
  formatName cfg.header_style doc.stem
    ++ (if cfg.include_file_path then "\n*Source: `".data ++ doc.pathStr ++ "`*".data else [])
    ++ (if cfg.include_doc_index then
          "\n*Document ".data ++ (Nat.repr doc.index).data ++ " of ".data
            ++ (Nat.repr doc.total_count).data ++ "*".data
        else [])

/-- Minimal JSON string escaping (`json.dumps` on the path strings the
pipeline produces). -/
def jsonEscape (s : List Char) : List Char :=
  s.flatMap fun c =>
    if c = '\\' then ['\\', '\\'] else if c = '"' then ['\\', '"'] else [c]

/-- `ContentProcessor.generate_metadata_comment` (runs with keyword
extraction disabled, so no `keywords` entry ever appears). -/
def generate_metadata_comment (cfg : MergeConfig) (doc : ProcessedDocument) : List Char :=
  if ¬ cfg.add_metadata then []
  else
    "<!-- DOC_META: \x7b\"source\": \"".data ++ jsonEscape doc.pathStr
      ++ "\", \"index\": ".data ++ (Nat.repr doc.index).data
      ++ ", \"size\": ".data ++ (Nat.repr doc.file_size).data
      ++ ", \"modified\": \"".data ++ doc.mtimeStr ++ "\"\x7d -->".data

/-- Python `f"{index:04d}"`. -/
def padZeros4 (s : List Char) : List Char :=
  List.replicate (4 - s.length) '0' ++ s

def docIdTag (index : Nat) : List Char :=
  "doc_".data ++ padZeros4 (Nat.repr index).data

/-- `ContentProcessor.generate_semantic_markers`. -/
def generate_semantic_markers (cfg : MergeConfig) (doc : ProcessedDocument)
    (position : List Char) : List Char :=
  if ¬ cfg.add_semantic_markers then []
  else if position = "start".data then
    "<document id=\"".data ++ docIdTag doc.index ++ "\" source=\"".data ++ doc.name
      ++ "\">".data
  else "</document>".data

/-- `ContentProcessor.generate_chunk_hint`. -/
def generate_chunk_hint (cfg : MergeConfig) (doc : ProcessedDocument) : List Char :=
  if ¬ cfg.add_chunk_hints then []
  else "<!-- CHUNK_BOUNDARY: ".data ++ docIdTag doc.index ++ " -->".data

/-- `ContentProcessor.generate_separator`. -/
def generate_separator (cfg : MergeConfig) : List Char :=
  List.replicate cfg.separator_blank_lines '\n' ++ cfg.separator_style
    ++ List.replicate cfg.separator_blank_lines '\n'

/-- `TOCGenerator.generate`. -/
def toc_generate (cfg : MergeConfig) (docs : List ProcessedDocument) : List Char :=
  if ¬ cfg.generate_toc then []
  else
    List.intercalate ['\n']
      (["# Table of Contents".data, ([] : List Char)]
        ++ docs.flatMap (fun doc =>
          let anchor := generate_anchor doc.stem
          (if cfg.toc_style = "links".data then
             ["- [".data ++ doc.stem ++ "](#".data ++ anchor ++ ")".data]
           else if cfg.toc_style = "numbered".data then
             [(Nat.repr doc.index).data ++ ". [".data ++ doc.stem ++ "](#".data
               ++ anchor ++ ")".data]
           else ["- ".data ++ doc.stem])
          ++ (if 1 < cfg.toc_depth then
                doc.headers.flatMap (fun h =>
                  if h.1 ≤ cfg.toc_depth then
                    [List.replicate (2 * (h.1 - 1)) ' '
                      ++ (if cfg.toc_style = "links".data then
                            "- [".data ++ h.2 ++ "](#".data ++ anchor ++ "--".data
                              ++ generate_anchor h.2 ++ ")".data
                          else "- ".data ++ h.2)]
                  else [])
              else []))
        ++ [([] : List Char), "---".data, ([] : List Char)])

/-! ## Merge engine (`core/merger.py`)

The run is modelled deterministically: `cancelAt = some k` means the
engine's cancellation flag (set once by `cancel()`, never cleared during a
run) reads true from the checkpoint before the `k`-th file onward;
`none` means it is never set.  The pause loop consumes no input and is not
modelled.  `dryRun` mirrors the `dry_run` argument; `writeFails` models
`_write_output` raising.  The backup snapshot only appends a warning on
failure and is not modelled. -/

structure MergeResultSim where
  success : Bool
  has_output_path : Bool
  files_merged : Nat
  total_size : Nat
  errors : List (List Char)
  warnings : List (List Char)
deriving DecidableEq

structure RunState where
  docs : List ProcessedDocument
  errors : List (List Char)
  bytes : Nat
deriving DecidableEq

def cancelObserved (cancelAt : Option Nat) (index : Nat) : Bool :=
  match cancelAt with
  | some k => k ≤ index
  | none => false

/-- Phase 1 of `MergeEngine.merge`: the per-file loop with its
file-boundary cancellation checkpoint and per-file exception handling.
Returns `some index` (and the state at that moment) when the checkpoint
before file `index` observes cancellation. -/
def mergeLoop (cfg : MergeConfig) (cancelAt : Option Nat) (total : Nat) :
    List FileInfo → Nat → RunState → Option Nat × RunState
  | [], _, st => (none, st)
  | f :: rest, index, st =>
    if cancelObserved cancelAt index then (some index, st)
    else
      match f.content with
      | some content =>
          mergeLoop cfg cancelAt total rest (index + 1)
            { docs := st.docs ++ [process_document cfg f content index total]
              errors := st.errors
              bytes := st.bytes + f.size }
      | none =>
          mergeLoop cfg cancelAt total rest (index + 1)
            { st with errors := st.errors ++ ["Error processing ".data ++ f.name] }

/-- `MergeEngine._write_output` as the text it writes. -/
def writeOneDoc (cfg : MergeConfig) (doc : ProcessedDocument) : List Char :=
  (if generate_metadata_comment cfg doc ≠ [] then generate_metadata_comment cfg doc ++ ['\n']
   else [])
    ++ (if generate_semantic_markers cfg doc "start".data ≠ [] then
          generate_semantic_markers cfg doc "start".data ++ ['\n']
        else [])
    ++ (if generate_chunk_hint cfg doc ≠ [] then generate_chunk_hint cfg doc ++ ['\n'] else [])
    ++ generate_document_header cfg doc ++ "\n\n".data
    ++ doc.processed_content
    ++ (if generate_semantic_markers cfg doc "end".data ≠ [] then
          '\n' :: generate_semantic_markers cfg doc "end".data
        else [])

def writeDocs (cfg : MergeConfig) : List ProcessedDocument → List Char
  | [] => []
  | [d] => writeOneDoc cfg d
  | d :: d' :: rest => writeOneDoc cfg d ++ generate_separator cfg ++ writeDocs cfg (d' :: rest)

def write_output (cfg : MergeConfig) (docs : List ProcessedDocument) : List Char :=
  (if cfg.generate_toc ∧ cfg.toc_position = "top".data then toc_generate cfg docs else [])
    ++ writeDocs cfg docs
    ++ (if cfg.generate_toc ∧ cfg.toc_position = "bottom".data then
          "\n\n".data ++ toc_generate cfg docs
        else [])

/-- `MergeEngine.merge`.  Returns the `MergeResult` together with the text
written to the output file (`none` for dry runs, cancelled runs and failed
writes). -/
def merge (cfg : MergeConfig) (files : List FileInfo) (cancelAt : Option Nat)
    (dryRun writeFails : Bool) : MergeResultSim × Option (List Char) :=
  match mergeLoop cfg cancelAt files.length files 1 ⟨[], [], 0⟩ with
  | (some idx, st) =>
      ({ success := false
         has_output_path := false
         files_merged := idx - 1
         total_size := st.bytes
         errors := ["Merge cancelled by user".data]
         warnings := [] }, none)
  | (none, st) =>
      if ¬ dryRun ∧ writeFails then
        ({ success := false
           has_output_path := false
           files_merged := 0
           total_size := st.bytes
           errors := ["Merge failed: write error".data]
           warnings := [] }, none)
      else
        ({ success := st.errors.isEmpty
           has_output_path := ¬ dryRun
           files_merged := st.docs.length
           total_size := st.bytes
           errors := st.errors
           warnings := [] },
         if dryRun then none else some (write_output cfg st.docs))

/-! ## File analyzer (`core/analyzer.py`)

The filesystem is a tree of named nodes; discovery inputs are
`(containing-directory path, node)` pairs.  Permission errors and the
preview snippet are not modelled (no claim concerns them);
`calculate_file_hash` (a streamed MD5) is abstracted by the file content
itself, a collision-free stand-in with the same equality behaviour on
byte-identical files. -/

inductive FSNode where
  | file (name : List Char) (size : Nat) (modified : Int) (mtimeStr : List Char)
      (content : Option (List Char))
  | dir (name : List Char) (children : List FSNode)

def joinPath (base name : List Char) : List Char :=
  base ++ "/".data ++ name

/-- `FileAnalyzer._matches_filters`. -/
def matches_filters (cfg : MergeConfig) (filename : List Char) : Bool :=
  matches_patterns filename cfg.include_patterns &&
    (cfg.exclude_patterns.isEmpty || !(matches_patterns filename cfg.exclude_patterns))

/-- `FileAnalyzer._analyze_file`. -/
def analyze_file (pathStr nameStr : List Char) (size : Nat) (modified : Int)
    (mtimeStr : List Char) (content : Option (List Char)) : FileInfo :=
  { path := pathStr
    name := nameStr
    stem := pathStem nameStr
    size := size
    modified := modified
    mtimeStr := mtimeStr
    content := content }

/-- `FileAnalyzer._scan_directory`, flattened over the entry list of the
directory at `dirPath`, visited at recursion depth `depth`.  Matching
files are analyzed; subdirectories recurse when `recursive` is set and the
name is not hidden, subject to the `max_depth` bound (checked, as in the
code, on entry to each recursive scan; the check at the root scan can
never fire and is folded away). -/
def scan_entries (cfg : MergeConfig) (dirPath : List Char) (depth : Nat) :
    List FSNode → List FileInfo
  | [] => []
  | FSNode.file nameStr size modified mtimeStr content :: rest =>
      (if matches_filters cfg nameStr then
         [analyze_file (joinPath dirPath nameStr) nameStr size modified mtimeStr content]
       else [])
        ++ scan_entries cfg dirPath depth rest
  | FSNode.dir nameStr children :: rest =>
      (if cfg.recursive ∧ nameStr.head? ≠ some '.' then
         (if 0 ≤ cfg.max_depth ∧ cfg.max_depth < ((depth + 1 : Nat) : Int) then []
          else scan_entries cfg (joinPath dirPath nameStr) (depth + 1) children)
       else [])
        ++ scan_entries cfg dirPath depth rest

/-- Stable insertion: `x` goes after every already-placed element `y` with
`le y x`, so elements with equal keys keep their arrival order. -/
def insertAsc (le : α → α → Bool) (x : α) : List α → List α
  | [] => [x]
  | y :: ys => if le y x then y :: insertAsc le x ys else x :: y :: ys

/-- A stable sort for a total preorder `le`.  Python's `list.sort` is
stable, and every stable sort agrees on a total preorder, so stable
insertion sort reproduces its output. -/
def stableSort (le : α → α → Bool) (l : List α) : List α :=
  l.foldl (fun acc x => insertAsc le x acc) []

/-- `FileAnalyzer._sort_files`: one stable sort keyed per `sort_order`,
`reverse=not sort_ascending` (stable descending = stable ascending with
the comparison flipped); `"custom"` (or any unrecognized order) is left
untouched. -/
def sort_files (cfg : MergeConfig) (files : List FileInfo) : List FileInfo :=
  let sortWith : (FileInfo → FileInfo → Bool) → List FileInfo := fun le =>
    if cfg.sort_ascending then stableSort le files
    else stableSort (fun a b => le b a) files
  if cfg.sort_order = "alphabetical".data then
    sortWith fun a b => cmpCharList (pyLower a.path) (pyLower b.path) ≠ Ordering.gt
  else if cfg.sort_order = "natural".data then
    sortWith fun a b => cmpKeyList (natural_sort_key a.path) (natural_sort_key b.path) ≠ Ordering.gt
  else if cfg.sort_order = "date".data then
    sortWith fun a b => decide (a.modified ≤ b.modified)
  else if cfg.sort_order = "size".data then
    sortWith fun a b => decide (a.size ≤ b.size)
  else files

/-- `FileAnalyzer.discover_files`. -/
def discover_files (cfg : MergeConfig) (roots : List (List Char × FSNode)) : List FileInfo :=
  sort_files cfg (roots.flatMap fun pr =>
    match pr.2 with
    | FSNode.file nameStr size modified mtimeStr content =>
        if matches_filters cfg nameStr then
          [analyze_file (joinPath pr.1 nameStr) nameStr size modified mtimeStr content]
        else []
    | FSNode.dir nameStr children => scan_entries cfg (joinPath pr.1 nameStr) 0 children)

/-- The MD5 digest of a file's bytes, abstracted by the bytes themselves. -/
def md5Model (f : FileInfo) : Option (List Char) := f.content

/-- Insertion into the hash map, preserving Python dict insertion order. -/
def updateBucket (h : Option (List Char)) (f : FileInfo) :
    List (Option (List Char) × List FileInfo) → List (Option (List Char) × List FileInfo)
  | [] => [(h, [f])]
  | (k, fs) :: rest =>
      if k = h then (k, fs ++ [f]) :: rest else (k, fs) :: updateBucket h f rest

/-- `FileAnalyzer.detect_duplicates`: config-gated; buckets files by
content hash and keeps only buckets with more than one member. -/
def detect_duplicates (cfg : MergeConfig) (files : List FileInfo) :
    List (Option (List Char) × List FileInfo) :=
  if ¬ cfg.detect_duplicates then []
  else
    (files.foldl (fun m f => updateBucket (md5Model f) f m) []).filter
      fun b => 1 < b.2.length

/-- The statistics record `FileAnalyzer.get_statistics` returns (the
float-formatted display strings are presentation only and not modelled). -/
structure FileStatistics where
  count : Nat
  total_size : Nat
  avg_size : Nat
  oldest : Option Int
  newest : Option Int
deriving DecidableEq

/-- `FileAnalyzer.get_statistics`: the empty list takes the early-return
branch; otherwise `min`/`max` run on a provably nonempty sequence. -/
def get_statistics (files : List FileInfo) : FileStatistics :=
  match files with
  | [] => ⟨0, 0, 0, none, none⟩
  | f :: fs =>
      let total := ((f :: fs).map (·.size)).sum
      ⟨(f :: fs).length, total, total / (f :: fs).length,
       some ((fs.map (·.modified)).foldl min f.modified),
       some ((fs.map (·.modified)).foldl max f.modified)⟩

/-- `MainWindow.add_paths` (the caller-side accumulation step): append the
newly discovered files whose path is not already present in the list
accumulated so far; the set of known paths is computed once, before the
loop. -/
def add_paths (files new_files : List FileInfo) : List FileInfo :=
  files ++ new_files.filter fun f => f.path ∉ files.map (·.path)

/-! ## Concrete fixtures used by witnesses and counterexamples -/

/-- A readable markdown file. -/
def sampleOk : FileInfo :=
  ⟨"root/a.md".data, "a.md".data, "a".data, 5, 100, "2024-01-01".data,
   some "# T\n\nbody\n".data⟩

/-- A file whose read/processing raises. -/
def sampleBad : FileInfo :=
  ⟨"root/b.md".data, "b.md".data, "b".data, 7, 200, "2024-01-02".data, none⟩

/-- A second readable markdown file. -/
def sampleOk2 : FileInfo :=
  ⟨"root/c.md".data, "c.md".data, "c".data, 3, 50, "2024-01-03".data, some "# C\n".data⟩

/-- A single file node, usable as a discovery root. -/
def sampleNode : FSNode :=
  FSNode.file "a.md".data 3 0 "2024-01-01".data (some "hi".data)

/-- Two byte-identical files at different paths. -/
def sampleDupA : FileInfo :=
  ⟨"x/a.md".data, "a.md".data, "a".data, 2, 0, "2024-01-01".data, some "same".data⟩

def sampleDupB : FileInfo :=
  ⟨"x/b.md".data, "b.md".data, "b".data, 2, 0, "2024-01-01".data, some "same".data⟩

/-! # Theorems -/

/-! ## Small list facts -/

theorem foldl_min_le (l : List Int) (a : Int) : ∀ x ∈ a :: l, l.foldl min a ≤ x := by
  induction l generalizing a with
  | nil =>
    intro x hx
    simp only [List.mem_singleton] at hx
    simp [hx]
  | cons y ys ih =>
    intro x hx
    simp only [List.foldl_cons]
    have hmin : ys.foldl min (min a y) ≤ min a y := ih (min a y) _ (List.mem_cons_self _ _)
    rcases List.mem_cons.mp hx with h | h'
    · subst h
      exact le_trans hmin (min_le_left _ _)
    · rcases List.mem_cons.mp h' with h2 | h3
      · subst h2
        exact le_trans hmin (min_le_right _ _)
      · exact ih _ _ (List.mem_cons_of_mem _ h3)

theorem foldl_min_mem (l : List Int) (a : Int) : l.foldl min a ∈ a :: l := by
  induction l generalizing a with
  | nil => simp
  | cons y ys ih =>
    simp only [List.foldl_cons]
    have hm := ih (min a y)
    rcases List.mem_cons.mp hm with h | h
    · rw [h]
      rcases min_choice a y with h' | h' <;> rw [h'] <;> simp
    · exact List.mem_cons_of_mem _ (List.mem_cons_of_mem _ h)

theorem foldl_max_ge (l : List Int) (a : Int) : ∀ x ∈ a :: l, x ≤ l.foldl max a := by
  induction l generalizing a with
  | nil =>
    intro x hx
    simp only [List.mem_singleton] at hx
    simp [hx]
  | cons y ys ih =>
    intro x hx
    simp only [List.foldl_cons]
    have hmax : max a y ≤ ys.foldl max (max a y) := ih (max a y) _ (List.mem_cons_self _ _)
    rcases List.mem_cons.mp hx with h | h'
    · subst h
      exact le_trans (le_max_left _ _) hmax
    · rcases List.mem_cons.mp h' with h2 | h3
      · subst h2
        exact le_trans (le_max_right _ _) hmax
      · exact ih _ _ (List.mem_cons_of_mem _ h3)

theorem foldl_max_mem (l : List Int) (a : Int) : l.foldl max a ∈ a :: l := by
  induction l generalizing a with
  | nil => simp
  | cons y ys ih =>
    simp only [List.foldl_cons]
    have hm := ih (max a y)
    rcases List.mem_cons.mp hm with h | h
    · rw [h]
      rcases max_choice a y with h' | h' <;> rw [h'] <;> simp
    · exact List.mem_cons_of_mem _ (List.mem_cons_of_mem _ h)

/-! ## C10: totality and correctness of `get_statistics` -/

/-- C10.  `get_statistics` is total: the empty list takes the zeroed
early-return branch (never the `min`/`max`-of-empty error branch), and a
nonempty list yields count = length, total = sum of sizes,
average = total integer-divided by count, oldest = least modification
time, newest = greatest modification time, with oldest ≤ newest. -/
theorem claim_C10 (files : List FileInfo) :
    (files = [] → get_statistics files = ⟨0, 0, 0, none, none⟩) ∧
    (files ≠ [] →
      (get_statistics files).count = files.length ∧
      (get_statistics files).total_size = (files.map (·.size)).sum ∧
      (get_statistics files).avg_size = (files.map (·.size)).sum / files.length ∧
      ∃ a b, (get_statistics files).oldest = some a ∧
        (get_statistics files).newest = some b ∧
        a ∈ files.map (·.modified) ∧ b ∈ files.map (·.modified) ∧
        (∀ t ∈ files.map (·.modified), a ≤ t ∧ t ≤ b) ∧ a ≤ b) := by
  constructor
  · rintro rfl
    rfl
  · intro hne
    match files with
    | [] => exact absurd rfl hne
    | f :: fs =>
      refine ⟨rfl, rfl, rfl, _, _, rfl, rfl, ?_, ?_, ?_, ?_⟩
      · simpa using foldl_min_mem (fs.map (·.modified)) f.modified
      · simpa using foldl_max_mem (fs.map (·.modified)) f.modified
      · intro t ht
        have ht' : t ∈ f.modified :: fs.map (·.modified) := by simpa using ht
        exact ⟨foldl_min_le _ _ _ ht', foldl_max_ge _ _ _ ht'⟩
      · exact le_trans (foldl_min_le _ _ _ (List.mem_cons_self _ _))
          (foldl_max_ge _ _ _ (List.mem_cons_self _ _))

/-- Witness for C10 at concrete inputs. -/
theorem claim_C10_witness :
    get_statistics [] = ⟨0, 0, 0, none, none⟩ ∧
    (get_statistics [sampleOk, sampleBad, sampleOk2]).count = 3 := by
  refine ⟨(claim_C10 []).1 rfl, ?_⟩
  have h2 := (claim_C10 [sampleOk, sampleBad, sampleOk2]).2 (by decide)
  exact h2.1.trans (by decide)

/-! ## C7: duplicate detection -/

/-- C7.  With duplicate detection disabled `detect_duplicates` returns no
groups; every returned group has at least two members; and two
byte-identical files produce exactly one group containing both. -/
theorem claim_C7 (cfg : MergeConfig) (files : List FileInfo) (a b : FileInfo) :
    (cfg.detect_duplicates = false → detect_duplicates cfg files = []) ∧
    (∀ g ∈ detect_duplicates cfg files, 2 ≤ g.2.length) ∧
    (cfg.detect_duplicates = true → a.content = b.content →
      detect_duplicates cfg [a, b] = [(a.content, [a, b])]) := by
  refine ⟨?_, ?_, ?_⟩
  · intro h
    simp [detect_duplicates, h]
  · intro g hg
    unfold detect_duplicates at hg
    split at hg
    · simp at hg
    · have h2 := List.of_mem_filter hg
      simp only [decide_eq_true_eq] at h2
      omega
  · intro hd hab
    simp [detect_duplicates, hd, md5Model, updateBucket, List.foldl, hab]

/-- Witness for C7: two byte-identical sample files yield exactly the one
duplicate group of size 2, and disabling detection yields none. -/
theorem claim_C7_witness :
    detect_duplicates default_config [sampleDupA, sampleDupB] =
      [(some "same".data, [sampleDupA, sampleDupB])] ∧
    detect_duplicates { default_config with detect_duplicates := false }
      [sampleDupA, sampleDupB] = [] := by
  constructor
  · have h := (claim_C7 default_config [] sampleDupA sampleDupB).2.2 rfl (by decide)
    exact h
  · exact (claim_C7 { default_config with detect_duplicates := false }
      [sampleDupA, sampleDupB] sampleDupA sampleDupB).1 rfl

/-! ## C9: fatal write-phase failure -/

/-- C9.  When the run reaches the write phase (no cancellation observed)
and the output write fails, the result is fatal: `success = false`,
exactly one synthesized error in the error list, `files_merged = 0`, and
no output is produced. -/
theorem claim_C9 (cfg : MergeConfig) (files : List FileInfo) (cancelAt : Option Nat)
    (h : (mergeLoop cfg cancelAt files.length files 1 ⟨[], [], 0⟩).1 = none) :
    (merge cfg files cancelAt false true).1.success = false ∧
    (merge cfg files cancelAt false true).1.errors.length = 1 ∧
    (merge cfg files cancelAt false true).1.files_merged = 0 ∧
    (merge cfg files cancelAt false true).2 = none := by
  have hp : mergeLoop cfg cancelAt files.length files 1 ⟨[], [], 0⟩ =
      (none, (mergeLoop cfg cancelAt files.length files 1 ⟨[], [], 0⟩).2) := by
    rw [← h]
  unfold merge
  rw [hp]
  simp

/-- Witness for C9 at a concrete run. -/
theorem claim_C9_witness :
    (merge default_config [sampleOk] none false true).1.success = false ∧
    (merge default_config [sampleOk] none false true).1.errors.length = 1 ∧
    (merge default_config [sampleOk] none false true).1.files_merged = 0 ∧
    (merge default_config [sampleOk] none false true).2 = none :=
  claim_C9 default_config [sampleOk] none (by decide)

/-! ## C8: best-effort per-file error handling -/

/-- On a run that never observes cancellation, the loop finishes with one
merged document per readable file and one recorded error per failing
file. -/
theorem mergeLoop_none (cfg : MergeConfig) (total : Nat) :
    ∀ (files : List FileInfo) (i : Nat) (st : RunState),
      (mergeLoop cfg none total files i st).1 = none ∧
      (mergeLoop cfg none total files i st).2.docs.length =
        st.docs.length + (files.filter (fun f => f.content.isSome)).length ∧
      (mergeLoop cfg none total files i st).2.errors.length =
        st.errors.length + (files.filter (fun f => f.content.isNone)).length := by
  intro files
  induction files with
  | nil =>
    intro i st
    simp [mergeLoop]
  | cons f rest ih =>
    intro i st
    cases hc : f.content with
    | some c =>
      have h := ih (i + 1)
        { docs := st.docs ++ [process_document cfg f c i total]
          errors := st.errors
          bytes := st.bytes + f.size }
      simp only [mergeLoop, cancelObserved, hc]
      rw [if_neg Bool.false_ne_true]
      refine ⟨h.1, ?_, ?_⟩
      · rw [h.2.1]
        simp [List.filter_cons, hc]
        omega
      · rw [h.2.2]
        simp [List.filter_cons, hc]
    | none =>
      have h := ih (i + 1)
        { st with errors := st.errors ++ ["Error processing ".data ++ f.name] }
      simp only [mergeLoop, cancelObserved, hc]
      rw [if_neg Bool.false_ne_true]
      refine ⟨h.1, ?_, ?_⟩
      · rw [h.2.1]
        simp [List.filter_cons, hc]
      · rw [h.2.2]
        simp [List.filter_cons, hc]
        omega

/-- C8.  On a run that completes (no cancellation, write phase succeeds or
dry run): each per-file failure is recorded without halting the run, the
remaining files are still processed (`files_merged` counts exactly the
readable files, failures are omitted from the output), the error list
holds one entry per failed file, and `success = false` iff at least one
error was recorded. -/
theorem claim_C8 (cfg : MergeConfig) (files : List FileInfo) (dryRun writeFails : Bool)
    (hw : dryRun = true ∨ writeFails = false) :
    (merge cfg files none dryRun writeFails).1.files_merged =
      (files.filter (fun f => f.content.isSome)).length ∧
    (merge cfg files none dryRun writeFails).1.errors.length =
      (files.filter (fun f => f.content.isNone)).length ∧
    ((merge cfg files none dryRun writeFails).1.success = false ↔
      (merge cfg files none dryRun writeFails).1.errors ≠ []) := by
  obtain ⟨h1, h2, h3⟩ := mergeLoop_none cfg files.length files 1 ⟨[], [], 0⟩
  rcases hml : mergeLoop cfg none files.length files 1 ⟨[], [], 0⟩ with ⟨o, st⟩
  rw [hml] at h1 h2 h3
  simp only at h1 h2 h3
  subst h1
  unfold merge
  rw [hml]
  have hwrite : ¬ (¬ dryRun = true ∧ writeFails = true) := by
    rcases hw with h | h <;> simp [h]
  simp only [if_neg hwrite]
  refine ⟨by simpa using h2, by simpa using h3, ?_⟩
  simp [List.isEmpty_iff]

/-- Witness for C8 at a concrete run with one failing file among three. -/
theorem claim_C8_witness :
    (merge default_config [sampleOk, sampleBad, sampleOk2] none true false).1.files_merged = 2 ∧
    (merge default_config [sampleOk, sampleBad, sampleOk2] none true false).1.errors.length = 1 := by
  have h := claim_C8 default_config [sampleOk, sampleBad, sampleOk2] true false (Or.inl rfl)
  exact ⟨h.1.trans (by decide), h.2.1.trans (by decide)⟩

/-! ## C2: cancellation at a file-boundary checkpoint -/

/-- When the cancellation flag reads true from the `k`-th checkpoint on and
the loop reaches that checkpoint, it stops there, and the documents merged
so far are exactly the readable files among the first `k - i` visited. -/
theorem mergeLoop_cancel (cfg : MergeConfig) (total k : Nat) :
    ∀ (files : List FileInfo) (i : Nat) (st : RunState),
      i ≤ k → k - i < files.length →
      (mergeLoop cfg (some k) total files i st).1 = some k ∧
      (mergeLoop cfg (some k) total files i st).2.docs.length =
        st.docs.length + ((files.take (k - i)).filter (fun f => f.content.isSome)).length := by
  intro files
  induction files with
  | nil =>
    intro i st _ h2
    simp at h2
  | cons f rest ih =>
    intro i st hik hlen
    by_cases hki : k ≤ i
    · have hk : k = i := le_antisymm hki hik
      subst hk
      have hobs : cancelObserved (some k) k = true := by
        simp [cancelObserved]
      simp [mergeLoop, hobs, Nat.sub_self]
    · push_neg at hki
      have hobs : cancelObserved (some k) i = false := by
        simp [cancelObserved]
        omega
      have htk : k - i = (k - (i + 1)) + 1 := by omega
      cases hc : f.content with
      | some c =>
        have h := ih (i + 1)
          { docs := st.docs ++ [process_document cfg f c i total]
            errors := st.errors
            bytes := st.bytes + f.size } (by omega) (by simp at hlen; omega)
        simp only [mergeLoop, hobs, Bool.false_eq_true, if_false, hc]
        refine ⟨h.1, ?_⟩
        rw [h.2]
        rw [htk]
        simp [List.take_succ_cons, List.filter_cons, hc]
        omega
      | none =>
        have h := ih (i + 1)
          { st with errors := st.errors ++ ["Error processing ".data ++ f.name] }
          (by omega) (by simp at hlen; omega)
        simp only [mergeLoop, hobs, Bool.false_eq_true, if_false, hc]
        refine ⟨h.1, ?_⟩
        rw [h.2]
        rw [htk]
        simp [List.take_succ_cons, List.filter_cons, hc]

/-- Counterexample to C2 as stated: with a failing first file and
cancellation observed at the checkpoint before the second file, the
cancelled result reports `files_merged = 1` although no document at all
was merged before cancellation (the code reports `index - 1`, the number
of files *visited*, not the number merged). -/
theorem claim_C2_cex :
    (merge default_config [sampleBad, sampleOk] (some 2) false false).1.success = false ∧
    (merge default_config [sampleBad, sampleOk] (some 2) false false).1.files_merged = 1 ∧
    (mergeLoop default_config (some 2) 2 [sampleBad, sampleOk] 1 ⟨[], [], 0⟩).2.docs.length = 0 ∧
    (merge default_config [sampleBad, sampleOk] (some 2) false false).1.files_merged ≠
      (mergeLoop default_config (some 2) 2 [sampleBad, sampleOk] 1 ⟨[], [], 0⟩).2.docs.length := by
  decide

/-- C2 (amended).  A run that observes cancellation at the checkpoint
before the `k`-th file returns an incomplete result with
`success = false`, a single cancellation message, no output written, and
`files_merged = k - 1` — the number of files *visited* before the
checkpoint, which equals the number of documents actually merged exactly
when every earlier file processed successfully. -/
theorem claim_C2_amended (cfg : MergeConfig) (files : List FileInfo) (k : Nat)
    (dryRun writeFails : Bool) (h1 : 1 ≤ k) (h2 : k ≤ files.length) :
    (merge cfg files (some k) dryRun writeFails).1.success = false ∧
    (merge cfg files (some k) dryRun writeFails).1.files_merged = k - 1 ∧
    (merge cfg files (some k) dryRun writeFails).1.errors =
      ["Merge cancelled by user".data] ∧
    (merge cfg files (some k) dryRun writeFails).2 = none ∧
    ((∀ f ∈ files.take (k - 1), f.content.isSome = true) →
      (merge cfg files (some k) dryRun writeFails).1.files_merged =
        (mergeLoop cfg (some k) files.length files 1 ⟨[], [], 0⟩).2.docs.length) := by
  have hm := mergeLoop_cancel cfg files.length k files 1 ⟨[], [], 0⟩ h1 (by omega)
  rcases hml : mergeLoop cfg (some k) files.length files 1 ⟨[], [], 0⟩ with ⟨o, st⟩
  rw [hml] at hm
  simp only at hm
  obtain ⟨ho, hd⟩ := hm
  subst ho
  unfold merge
  rw [hml]
  refine ⟨rfl, rfl, rfl, rfl, ?_⟩
  intro hall
  have hfilter : (files.take (k - 1)).filter (fun f => f.content.isSome) =
      files.take (k - 1) := List.filter_eq_self.mpr (fun f hf => by simpa using hall f hf)
  have hlen : (files.take (k - 1)).length = k - 1 := by
    rw [List.length_take]
    omega
  simp only []
  rw [hd, hfilter, hlen]
  simp

/-- Witness for C2 (amended) at a concrete cancelled run with no earlier
failures. -/
theorem claim_C2_witness :
    (merge default_config [sampleOk, sampleOk2] (some 2) false false).1.success = false ∧
    (merge default_config [sampleOk, sampleOk2] (some 2) false false).1.files_merged = 1 ∧
    (merge default_config [sampleOk, sampleOk2] (some 2) false false).1.files_merged =
      (mergeLoop default_config (some 2) [sampleOk, sampleOk2].length
        [sampleOk, sampleOk2] 1 ⟨[], [], 0⟩).2.docs.length := by
  have h := claim_C2_amended default_config [sampleOk, sampleOk2] 2 false false
    (by decide) (by decide)
  exact ⟨h.1, h.2.1, h.2.2.2.2 (by decide)⟩

/-! ## C4: merging an empty file list -/

/-- Counterexample to C4 as stated: merging an empty list under the
default configuration succeeds with `files_merged = 0`, but the written
output *does* contain the table-of-contents heading — the TOC (heading
included) is emitted even for zero documents. -/
theorem claim_C4_cex :
    (merge default_config [] none false false).1.success = true ∧
    (merge default_config [] none false false).1.files_merged = 0 ∧
    "# Table of Contents".data <:+: ((merge default_config [] none false false).2.getD []) := by
  refine ⟨by decide, by decide, [], "\n\n\n---\n".data, by decide⟩

/-- C4 (amended).  Merging an empty file list succeeds (`success = true`)
with `files_merged = 0`; the written output contains the
table-of-contents heading iff TOC generation is enabled (the heading is
emitted even when there are zero documents). -/
theorem claim_C4_amended (cfg : MergeConfig)
    (hpos : cfg.toc_position = "top".data ∨ cfg.toc_position = "bottom".data) :
    (merge cfg [] none false false).1.success = true ∧
    (merge cfg [] none false false).1.files_merged = 0 ∧
    ("# Table of Contents".data <:+: ((merge cfg [] none false false).2.getD []) ↔
      cfg.generate_toc = true) := by
  have hml : mergeLoop cfg none ([] : List FileInfo).length [] 1 ⟨[], [], 0⟩ =
      (none, ⟨[], [], 0⟩) := rfl
  unfold merge
  rw [hml]
  refine ⟨rfl, rfl, ?_⟩
  simp only [Option.getD_some]
  cases hgen : cfg.generate_toc with
  | false =>
    have hw : write_output cfg [] = [] := by
      simp [write_output, writeDocs, hgen]
    rw [hw]
    simp only [Bool.false_eq_true, iff_false]
    intro hinf
    have : "# Table of Contents".data = [] := List.eq_nil_of_infix_nil hinf
    simp at this
  | true =>
    have htoc : toc_generate cfg [] =
        "# Table of Contents".data ++ "\n\n\n---\n".data := by
      simp [toc_generate, hgen]
      rfl
    simp only [iff_true]
    rcases hpos with hp | hp
    · have hw : write_output cfg [] =
          "# Table of Contents".data ++ "\n\n\n---\n".data := by
        simp [write_output, writeDocs, hgen, hp, htoc]
      rw [hw]
      exact ⟨[], "\n\n\n---\n".data, rfl⟩
    · by_cases htop : cfg.toc_position = "top".data
      · have hw : write_output cfg [] =
            "# Table of Contents".data ++ "\n\n\n---\n".data := by
          simp [write_output, writeDocs, hgen, htop, htoc]
        rw [hw]
        exact ⟨[], "\n\n\n---\n".data, rfl⟩
      · have hw : write_output cfg [] =
            "\n\n".data ++ ("# Table of Contents".data ++ "\n\n\n---\n".data) := by
          simp [write_output, writeDocs, hgen, hp, htop, htoc]
        rw [hw]
        exact ⟨"\n\n".data, "\n\n\n---\n".data, by simp⟩

/-- Witness for C4 (amended) at the default configuration. -/
theorem claim_C4_witness :
    (merge default_config [] none false false).1.success = true ∧
    ("# Table of Contents".data <:+:
      ((merge default_config [] none false false).2.getD []) ↔
      default_config.generate_toc = true) := by
  have h := claim_C4_amended default_config (Or.inl rfl)
  exact ⟨h.1, h.2.2⟩

/-! ## C3: uniqueness by path and the order of de-duplication stages -/

/-- Every member of a bucket produced by one insertion is the inserted
file or comes from an existing bucket. -/
theorem updateBucket_mem (h : Option (List Char)) (x : FileInfo) :
    ∀ (m : List (Option (List Char) × List FileInfo)),
      ∀ g ∈ updateBucket h x m, ∀ f ∈ g.2, f = x ∨ ∃ g₀ ∈ m, f ∈ g₀.2 := by
  intro m
  induction m with
  | nil =>
    intro g hg f hf
    simp only [updateBucket, List.mem_singleton] at hg
    subst hg
    simp only [List.mem_singleton] at hf
    exact Or.inl hf
  | cons b rest ih =>
    intro g hg f hf
    obtain ⟨kb, fsb⟩ := b
    simp only [updateBucket] at hg
    split at hg
    · rcases List.mem_cons.mp hg with h1 | h1
      · subst h1
        simp only [List.mem_append, List.mem_singleton] at hf
        rcases hf with h2 | h2
        · exact Or.inr ⟨(kb, fsb), List.mem_cons_self _ _, h2⟩
        · exact Or.inl h2
      · exact Or.inr ⟨g, List.mem_cons_of_mem _ h1, hf⟩
    · rcases List.mem_cons.mp hg with h1 | h1
      · subst h1
        exact Or.inr ⟨_, List.mem_cons_self _ _, hf⟩
      · rcases ih g h1 f hf with h2 | ⟨g₀, hg₀, hf₀⟩
        · exact Or.inl h2
        · exact Or.inr ⟨g₀, List.mem_cons_of_mem _ hg₀, hf₀⟩

/-- Every member of a bucket built over `files` comes from `files` (or the
starting accumulator). -/
theorem foldBuckets_mem :
    ∀ (files : List FileInfo) (acc : List (Option (List Char) × List FileInfo)),
      ∀ g ∈ files.foldl (fun m f => updateBucket (md5Model f) f m) acc,
        ∀ f ∈ g.2, f ∈ files ∨ ∃ g₀ ∈ acc, f ∈ g₀.2 := by
  intro files
  induction files with
  | nil =>
    intro acc g hg f hf
    exact Or.inr ⟨g, hg, hf⟩
  | cons x rest ih =>
    intro acc g hg f hf
    simp only [List.foldl_cons] at hg
    rcases ih (updateBucket (md5Model x) x acc) g hg f hf with h1 | ⟨g₀, hg₀, hf₀⟩
    · exact Or.inl (List.mem_cons_of_mem _ h1)
    · rcases updateBucket_mem (md5Model x) x acc g₀ hg₀ f hf₀ with h2 | ⟨g₁, hg₁, hf₁⟩
      · subst h2
        exact Or.inl (List.mem_cons_self _ _)
      · exact Or.inr ⟨g₁, hg₁, hf₁⟩

/-- Every member of every duplicate group comes from the input list. -/
theorem detect_duplicates_mem (cfg : MergeConfig) (files : List FileInfo) :
    ∀ g ∈ detect_duplicates cfg files, ∀ f ∈ g.2, f ∈ files := by
  intro g hg f hf
  unfold detect_duplicates at hg
  split at hg
  · simp at hg
  · have hmem := List.mem_of_mem_filter hg
    rcases foldBuckets_mem files [] g hmem f hf with h | ⟨g₀, hg₀, _⟩
    · exact h
    · simp at hg₀

/-- Counterexample to C3 as stated: a discovery run over two overlapping
input paths (here, the same file given twice) returns its path twice —
`discover_files` itself performs no path-based de-duplication. -/
theorem claim_C3_cex :
    ((discover_files default_config
        [("root".data, sampleNode), ("root".data, sampleNode)]).map (·.path)) =
      ["root/a.md".data, "root/a.md".data] ∧
    ¬ ((discover_files default_config
        [("root".data, sampleNode), ("root".data, sampleNode)]).map (·.path)).Nodup := by
  decide

/-- Filtering a file list against a path set that does not contain `p`
leaves the number of occurrences of `p` unchanged: the filter never removes
a file whose path is `p`. -/
theorem count_path_filter_not_mem (E : List (List Char)) (p : List Char)
    (hp : p ∉ E) :
    ∀ l : List FileInfo,
      ((l.filter fun f => f.path ∉ E).map (·.path)).count p =
        (l.map (·.path)).count p := by
  intro l
  induction l with
  | nil => rfl
  | cons x xs ih =>
    by_cases hq : x.path ∈ E
    · rw [List.filter_cons, if_neg (by simp [hq]), List.map_cons,
        List.count_cons_of_ne (show p ≠ x.path from fun heq => hp (heq.symm ▸ hq))]
      exact ih
    · rw [List.filter_cons, if_pos (by simp [hq]), List.map_cons, List.map_cons]
      simp only [List.count_cons, ih]

/-- C3 (amended).  A discovery result may contain the same path more than
once — `discover_files` performs no path-based de-duplication (see the
counterexample).  The only path-based filtering is the caller-side
accumulation step `add_paths`, which drops a newly discovered file exactly
when its path is already in the previously accumulated list; since the
known-path set is computed once, before the loop, duplicate paths inside a
single discovery batch are all kept.  Precisely: after accumulation, a path
already present gains no new copies, while a path new to the accumulated
list appears with its full multiplicity from the batch.  Content-hash
de-duplication runs afterwards, on that accumulated list — every file in
every duplicate group is a member of it. -/
theorem claim_C3_amended (cfg : MergeConfig) (existing new_files : List FileInfo)
    (p : List Char) :
    ((add_paths existing new_files).map (·.path)).count p =
      (existing.map (·.path)).count p +
      (if p ∈ existing.map (·.path) then 0
       else (new_files.map (·.path)).count p) ∧
    (∀ g ∈ detect_duplicates cfg (add_paths existing new_files), ∀ f ∈ g.2,
      f ∈ add_paths existing new_files) := by
  constructor
  · unfold add_paths
    rw [List.map_append, List.count_append]
    congr 1
    by_cases hp : p ∈ existing.map (·.path)
    · rw [if_pos hp, List.count_eq_zero]
      intro hmem
      obtain ⟨f, hf, hfp⟩ := List.mem_map.mp hmem
      have hpred := List.of_mem_filter hf
      simp only [decide_eq_true_eq] at hpred
      exact hpred (by rw [hfp]; exact hp)
    · rw [if_neg hp]
      exact count_path_filter_not_mem (existing.map (·.path)) p hp new_files
  · exact detect_duplicates_mem cfg _

/-- Witness for C3 (amended) at concrete lists: a batch holding the new path
`root/c.md` twice keeps both copies (the accumulated list counts it twice),
while the already-accumulated `root/a.md` gains no copy. -/
theorem claim_C3_witness :
    (((add_paths [sampleOk] [sampleOk, sampleOk2, sampleOk2]).map (·.path)).count
        "root/c.md".data =
      ([sampleOk].map (·.path)).count "root/c.md".data +
      (if "root/c.md".data ∈ [sampleOk].map (·.path) then 0
       else ([sampleOk, sampleOk2, sampleOk2].map (·.path)).count "root/c.md".data) ∧
    (∀ g ∈ detect_duplicates default_config
        (add_paths [sampleOk] [sampleOk, sampleOk2, sampleOk2]), ∀ f ∈ g.2,
      f ∈ add_paths [sampleOk] [sampleOk, sampleOk2, sampleOk2])) ∧
    ((add_paths [sampleOk] [sampleOk, sampleOk2, sampleOk2]).map (·.path)).count
        "root/c.md".data = 2 :=
  ⟨claim_C3_amended default_config [sampleOk] [sampleOk, sampleOk2, sampleOk2]
    "root/c.md".data, by decide⟩

/-! ## C5: front-matter extraction -/

theorem findDelimFrom_append (close : List Char) (rest : List (List Char))
    (hclose : pyStrip close = "---".data) :
    ∀ (mid : List (List Char)), (∀ l ∈ mid, pyStrip l ≠ "---".data) →
      ∀ i, findDelimFrom (mid ++ close :: rest) i = some (i + mid.length) := by
  intro mid
  induction mid with
  | nil =>
    intro _ i
    simp [findDelimFrom, hclose]
  | cons m ms ih =>
    intro hmid i
    simp only [List.cons_append, findDelimFrom, List.append_eq]
    rw [if_neg (hmid m (List.mem_cons_self _ _))]
    rw [ih (fun l hl => hmid l (List.mem_cons_of_mem _ hl)) (i + 1)]
    congr 1
    simp only [List.length_cons]
    omega

theorem findDelimFrom_none :
    ∀ (ls : List (List Char)), (∀ l ∈ ls, pyStrip l ≠ "---".data) →
      ∀ i, findDelimFrom ls i = none := by
  intro ls
  induction ls with
  | nil => intro _ i; rfl
  | cons m ms ih =>
    intro hls i
    simp only [findDelimFrom]
    rw [if_neg (hls m (List.mem_cons_self _ _))]
    exact ih (fun l hl => hls l (List.mem_cons_of_mem _ hl)) (i + 1)

/-- Joining lines with a newline starts with the first line. -/
theorem intercalate_nl_cons (fl : List Char) (ls : List (List Char)) :
    ∃ t, List.intercalate ['\n'] (fl :: ls) = fl ++ t := by
  cases ls with
  | nil => exact ⟨[], by simp [List.intercalate]⟩
  | cons b bs =>
    refine ⟨'\n' :: List.intercalate ['\n'] (b :: bs), ?_⟩
    simp [List.intercalate, List.intersperse_cons₂]

/-- Counterexample to C5 as stated: with blank lines after the closing
delimiter, the returned remaining text is not the text after the closing
delimiter line — the implementation additionally strips leading
newlines. -/
theorem claim_C5_cex :
    extract_front_matter "---\na\n---\n\nb".data = (some "a".data, "b".data) ∧
    extract_front_matter_spec "---\na\n---\n\nb".data = (some "a".data, "\nb".data) ∧
    extract_front_matter "---\na\n---\n\nb".data ≠
      extract_front_matter_spec "---\na\n---\n\nb".data := by
  decide

/-- C5 (amended).  Content that does not start with `---` is returned
unchanged with no front matter; content whose first line opens with `---`
and that has a later line stripping to `---` yields (text between the
delimiter lines, text after the closing delimiter line with leading
newlines stripped); without such a closing line no front matter is
extracted and the content is returned unchanged. -/
theorem claim_C5_amended :
    (∀ content : List Char, "---".data.isPrefixOf content = false →
      extract_front_matter content = (none, content)) ∧
    (∀ (fl : List Char) (mid : List (List Char)) (close : List Char)
        (rest : List (List Char)),
      "---".data <+: fl → '\n' ∉ fl → (∀ l ∈ mid, '\n' ∉ l) → '\n' ∉ close →
      (∀ l ∈ rest, '\n' ∉ l) →
      (∀ l ∈ mid, pyStrip l ≠ "---".data) → pyStrip close = "---".data →
      extract_front_matter (List.intercalate ['\n'] (fl :: (mid ++ close :: rest))) =
        (some (List.intercalate ['\n'] mid),
         lstripNewlines (List.intercalate ['\n'] rest))) ∧
    (∀ (fl : List Char) (mid : List (List Char)),
      "---".data <+: fl → '\n' ∉ fl → (∀ l ∈ mid, '\n' ∉ l) →
      (∀ l ∈ mid, pyStrip l ≠ "---".data) →
      extract_front_matter (List.intercalate ['\n'] (fl :: mid)) =
        (none, List.intercalate ['\n'] (fl :: mid))) := by
  refine ⟨?_, ?_, ?_⟩
  · intro content h
    unfold extract_front_matter
    rw [if_neg (by simp [h])]
  · intro fl mid close rest hpre hfl hmid hclose hrest hmidne hclosestrip
    have hsplit : (List.intercalate ['\n'] (fl :: (mid ++ close :: rest))).splitOn '\n' =
        fl :: (mid ++ close :: rest) := by
      apply List.splitOn_intercalate
      · intro l hl
        rcases List.mem_cons.mp hl with h | h
        · exact h ▸ hfl
        · rcases List.mem_append.mp h with h' | h'
          · exact hmid l h'
          · rcases List.mem_cons.mp h' with h'' | h''
            · exact h'' ▸ hclose
            · exact hrest l h''
      · simp
    have hpre' : "---".data.isPrefixOf
        (List.intercalate ['\n'] (fl :: (mid ++ close :: rest))) = true := by
      rw [List.isPrefixOf_iff_prefix]
      obtain ⟨t, ht⟩ := intercalate_nl_cons fl (mid ++ close :: rest)
      rw [ht]
      exact hpre.trans (List.prefix_append fl t)
    unfold extract_front_matter
    rw [if_pos (by simp [hpre'])]
    simp only [hsplit, List.tail_cons]
    rw [findDelimFrom_append close rest hclosestrip mid hmidne 1]
    simp only [List.drop_succ_cons, List.drop_zero, Nat.add_sub_cancel_left]
    have htake : (mid ++ close :: rest).take mid.length = mid :=
      List.take_left' rfl
    have hdrop : (mid ++ close :: rest).drop (1 + mid.length) = rest := by
      have heq : mid ++ close :: rest = (mid ++ [close]) ++ rest := by simp
      rw [heq]
      apply List.drop_left'
      simp only [List.length_append, List.length_cons, List.length_nil]
      omega
    rw [htake, hdrop]
  · intro fl mid hpre hfl hmid hmidne
    have hsplit : (List.intercalate ['\n'] (fl :: mid)).splitOn '\n' = fl :: mid := by
      apply List.splitOn_intercalate
      · intro l hl
        rcases List.mem_cons.mp hl with h | h
        · exact h ▸ hfl
        · exact hmid l h
      · simp
    have hpre' : "---".data.isPrefixOf (List.intercalate ['\n'] (fl :: mid)) = true := by
      rw [List.isPrefixOf_iff_prefix]
      obtain ⟨t, ht⟩ := intercalate_nl_cons fl mid
      rw [ht]
      exact hpre.trans (List.prefix_append fl t)
    unfold extract_front_matter
    rw [if_pos (by simp [hpre'])]
    simp only [hsplit, List.tail_cons]
    rw [findDelimFrom_none mid hmidne 1]

/-- Witness for C5 (amended) at concrete contents. -/
theorem claim_C5_witness :
    extract_front_matter "no front".data = (none, "no front".data) ∧
    extract_front_matter "---\ntitle: x\n---\nbody".data =
      (some "title: x".data, "body".data) ∧
    extract_front_matter "---\nabc".data = (none, "---\nabc".data) := by
  obtain ⟨h1, h2, h3⟩ := claim_C5_amended
  refine ⟨h1 "no front".data (by decide), ?_, ?_⟩
  · have := h2 "---".data ["title: x".data] "---".data ["body".data]
      (by decide) (by decide) (by decide) (by decide) (by decide) (by decide) (by decide)
    exact this.trans (by decide)
  · have := h3 "---".data ["abc".data] (by decide) (by decide) (by decide) (by decide)
    exact this.trans (by decide)

/-! ## C1: header-level shift -/

theorem clampLevel_bounds (n : Nat) (offset : Int) :
    1 ≤ clampLevel n offset ∧ clampLevel n offset ≤ 6 := by
  have h1 : (1 : Int) ≤ max 1 (min 6 ((n : Int) + offset)) := le_max_left _ _
  have h2 : max 1 (min 6 ((n : Int) + offset)) ≤ 6 :=
    max_le (by norm_num) (min_le_left _ _)
  unfold clampLevel
  omega

theorem clampLevel_zero {n : Nat} (h1 : 1 ≤ n) (h6 : n ≤ 6) : clampLevel n 0 = n := by
  unfold clampLevel
  have h1' : (1 : Int) ≤ (n : Int) := by exact_mod_cast h1
  have h6' : (n : Int) ≤ 6 := by exact_mod_cast h6
  rw [add_zero, min_eq_right h6', max_eq_right h1']
  simp

theorem isPySpace_ne_hash {c : Char} (h : isPySpace c = true) : c ≠ '#' := by
  intro hc
  subst hc
  exact absurd h (by decide)

/-- Every header the extraction scanner emits has its level between 1 and
6: the pattern only ever recognizes 1–6 hashes. -/
theorem extGo_levels (d : Nat) : ∀ (cs : List Char) (st : ExtState),
    (match st with
     | ExtState.hashes k => 1 ≤ k
     | ExtState.inWsH k _ => 1 ≤ k ∧ k ≤ 6
     | ExtState.inText k _ => 1 ≤ k ∧ k ≤ 6
     | _ => True) →
    ∀ p ∈ extGo d st cs, 1 ≤ p.1 ∧ p.1 ≤ 6 := by
  intro cs
  induction cs with
  | nil =>
    intro st hst p hp
    cases st with
    | lineStart => simp [extGo] at hp
    | hashes k => simp [extGo] at hp
    | inWsH k ws =>
      simp only [extGo] at hp
      split_ifs at hp
      · simp only [List.mem_singleton] at hp
        subst hp
        exact hst
      · simp at hp
      · simp at hp
    | inText k acc =>
      simp only [extGo] at hp
      split_ifs at hp
      · simp only [List.mem_singleton] at hp
        subst hp
        exact hst
      · simp at hp
    | skipLine => simp [extGo] at hp
  | cons c cs ih =>
    intro st hst p hp
    cases st with
    | lineStart =>
      simp only [extGo] at hp
      split_ifs at hp
      · exact ih (ExtState.hashes 1) (Nat.le_refl 1) p hp
      · exact ih ExtState.lineStart trivial p hp
      · exact ih ExtState.skipLine trivial p hp
    | hashes k =>
      simp only [extGo] at hp
      split_ifs at hp with hh hm
      · exact ih (ExtState.hashes (k + 1)) (show 1 ≤ k + 1 by omega) p hp
      · exact ih (ExtState.inWsH k [c]) (show 1 ≤ k ∧ k ≤ 6 from ⟨hst, hm.1⟩) p hp
      · exact ih ExtState.lineStart trivial p hp
      · exact ih ExtState.skipLine trivial p hp
    | inWsH k ws =>
      simp only [extGo] at hp
      split_ifs at hp
      · exact ih (ExtState.inWsH k (ws ++ [c])) hst p hp
      · exact ih (ExtState.inText k [c]) hst p hp
    | inText k acc =>
      simp only [extGo] at hp
      by_cases hnl : c = '\n'
      · rw [if_pos hnl] at hp
        rcases List.mem_append.mp hp with h | h
        · by_cases hkd : k ≤ d
          · rw [if_pos hkd] at h
            simp only [List.mem_singleton] at h
            subst h
            exact hst
          · rw [if_neg hkd] at h
            simp at h
        · exact ih ExtState.lineStart trivial p h
      · rw [if_neg hnl] at hp
        exact ih (ExtState.inText k (c :: acc)) hst p hp
    | skipLine =>
      simp only [extGo] at hp
      split_ifs at hp
      · exact ih ExtState.lineStart trivial p hp
      · exact ih ExtState.skipLine trivial p hp

theorem adjGo_lineStart_hash (offset : Int) (Y : List Char) :
    adjGo offset ScanState.lineStart ('#' :: Y) = adjGo offset (ScanState.hashes 1) Y := by
  simp [adjGo]

theorem adjGo_hashes_step (offset : Int) (k : Nat) (Y : List Char) :
    adjGo offset (ScanState.hashes k) ('#' :: Y) =
      adjGo offset (ScanState.hashes (k + 1)) Y := by
  simp [adjGo]

/-- Content none of whose lines begins with `#` passes through the
adjuster unchanged. -/
theorem adjGo_noHash (offset : Int) : ∀ (cs : List Char),
    (noHashAfter true cs = true → adjGo offset ScanState.lineStart cs = cs) ∧
    (noHashAfter false cs = true → adjGo offset ScanState.copyLine cs = cs) := by
  intro cs
  induction cs with
  | nil => exact ⟨fun _ => rfl, fun _ => rfl⟩
  | cons c cs ih =>
    constructor
    · intro h
      simp only [noHashAfter, Bool.and_eq_true] at h
      obtain ⟨hb, hrest⟩ := h
      have hch : c ≠ '#' := by simpa using hb
      by_cases hnl : c = '\n'
      · rw [show adjGo offset ScanState.lineStart (c :: cs) =
            c :: adjGo offset ScanState.lineStart cs from by
          simp only [adjGo, if_neg hch, if_pos hnl]]
        rw [ih.1 (by rwa [show decide (c = '\n') = true by simp [hnl]] at hrest)]
      · rw [show adjGo offset ScanState.lineStart (c :: cs) =
            c :: adjGo offset ScanState.copyLine cs from by
          simp only [adjGo, if_neg hch, if_neg hnl]]
        rw [ih.2 (by rwa [show decide (c = '\n') = false by simp [hnl]] at hrest)]
    · intro h
      simp only [noHashAfter, Bool.and_eq_true] at h
      obtain ⟨-, hrest⟩ := h
      by_cases hnl : c = '\n'
      · rw [show adjGo offset ScanState.copyLine (c :: cs) =
            c :: adjGo offset ScanState.lineStart cs from by
          simp only [adjGo, if_pos hnl]]
        rw [ih.1 (by rwa [show decide (c = '\n') = true by simp [hnl]] at hrest)]
      · rw [show adjGo offset ScanState.copyLine (c :: cs) =
            c :: adjGo offset ScanState.copyLine cs from by
          simp only [adjGo, if_neg hnl]]
        rw [ih.2 (by rwa [show decide (c = '\n') = false by simp [hnl]] at hrest)]

/-- The `inWs` and `copyLine` states copy newline-free input verbatim. -/
theorem adjGo_copy_noNL (offset : Int) : ∀ (cs : List Char), '\n' ∉ cs →
    adjGo offset ScanState.inWs cs = cs ∧ adjGo offset ScanState.copyLine cs = cs := by
  intro cs
  induction cs with
  | nil => intro _; exact ⟨rfl, rfl⟩
  | cons c cs ih =>
    intro h
    have hc : c ≠ '\n' := by
      intro hx
      exact h (hx ▸ List.mem_cons_self _ _)
    have hcs : '\n' ∉ cs := fun hx => h (List.mem_cons_of_mem _ hx)
    obtain ⟨h1, h2⟩ := ih hcs
    constructor
    · by_cases hws : isPySpace c = true
      · rw [show adjGo offset ScanState.inWs (c :: cs) =
            c :: adjGo offset ScanState.inWs cs from by
          simp only [adjGo, if_pos hws]]
        rw [h1]
      · rw [show adjGo offset ScanState.inWs (c :: cs) =
            c :: adjGo offset ScanState.copyLine cs from by
          simp only [adjGo, if_neg hws]]
        rw [h2]
    · rw [show adjGo offset ScanState.copyLine (c :: cs) =
          c :: adjGo offset ScanState.copyLine cs from by
        simp only [adjGo, if_neg hc]]
      rw [h2]

/-- Running the hash-counting state over the rest of a hash run and then a
whitespace character produces the clamped rewrite. -/
theorem adjGo_hashes_match (offset : Int) (w : Char) (rest : List Char)
    (hw : isPySpace w = true) :
    ∀ (j k : Nat), k + j ≤ 6 →
      adjGo offset (ScanState.hashes k) (List.replicate j '#' ++ w :: rest) =
        List.replicate (clampLevel (k + j) offset) '#' ++
          w :: adjGo offset ScanState.inWs rest := by
  intro j
  induction j with
  | zero =>
    intro k hk
    have h6 : k ≤ 6 := by omega
    rw [List.replicate_zero, List.nil_append]
    rw [show adjGo offset (ScanState.hashes k) (w :: rest) =
        List.replicate (clampLevel k offset) '#' ++ w :: adjGo offset ScanState.inWs rest
      from by
        simp only [adjGo, if_neg (isPySpace_ne_hash hw)]
        rw [if_pos ⟨h6, hw⟩]]
    rw [Nat.add_zero]
  | succ j ih =>
    intro k hk
    rw [show List.replicate (j + 1) '#' = '#' :: List.replicate j '#' from rfl]
    rw [List.cons_append, adjGo_hashes_step, ih (k + 1) (by omega)]
    congr 3
    omega

/-- C1.  Every header line in the output of the header-level shift has a
depth in [1, 6]; a content with no header-marker lines passes through
unchanged (the shift touches only lines beginning with a header marker);
a header line of depth `n` followed by whitespace is rewritten to depth
`max(1, min(6, n + offset))`, which lies in [1, 6]; in particular a
depth-1 header at offset −3 stays at depth 1 and a depth-6 header at
offset +5 stays at depth 6. -/
theorem claim_C1 :
    (∀ (content : List Char) (offset : Int),
      ∀ p ∈ extract_headers (adjust_header_levels content offset) 6,
        1 ≤ p.1 ∧ p.1 ≤ 6) ∧
    (∀ (content : List Char) (offset : Int), noHashAfter true content = true →
      adjust_header_levels content offset = content) ∧
    (∀ (offset : Int) (n : Nat) (w : Char) (rest : List Char),
      1 ≤ n → n ≤ 6 → isPySpace w = true → '\n' ∉ rest →
      adjust_header_levels (List.replicate n '#' ++ w :: rest) offset =
        List.replicate (clampLevel n offset) '#' ++ w :: rest ∧
      1 ≤ clampLevel n offset ∧ clampLevel n offset ≤ 6) ∧
    adjust_header_levels "# A".data (-3) = "# A".data ∧
    adjust_header_levels "###### B".data 5 = "###### B".data := by
  refine ⟨?_, ?_, ?_, by decide, by decide⟩
  · intro content offset p hp
    exact extGo_levels 6 _ ExtState.lineStart trivial p hp
  · intro content offset h
    unfold adjust_header_levels
    split
    · rfl
    · exact (adjGo_noHash offset content).1 h
  · intro offset n w rest h1 h6 hw hnl
    refine ⟨?_, clampLevel_bounds n offset⟩
    unfold adjust_header_levels
    split
    · rename_i h0
      rw [h0, clampLevel_zero h1 h6]
    · obtain ⟨n', rfl⟩ : ∃ n', n = n' + 1 := ⟨n - 1, by omega⟩
      rw [show List.replicate (n' + 1) '#' = '#' :: List.replicate n' '#' from rfl]
      rw [List.cons_append, adjGo_lineStart_hash]
      rw [adjGo_hashes_match offset w rest hw n' 1 (by omega)]
      rw [(adjGo_copy_noNL offset rest hnl).1]
      congr 3
      omega

/-- Witness for C1 at concrete contents. -/
theorem claim_C1_witness :
    (∀ p ∈ extract_headers (adjust_header_levels "## A\n#### B".data 4) 6,
      1 ≤ p.1 ∧ p.1 ≤ 6) ∧
    adjust_header_levels "plain text\nno markers".data 3 = "plain text\nno markers".data ∧
    adjust_header_levels "## X".data 2 = "#### X".data := by
  obtain ⟨ha, hb, hc, -, -⟩ := claim_C1
  refine ⟨ha _ 4, hb _ 3 (by decide), ?_⟩
  have := (hc 2 2 ' ' "X".data (by decide) (by decide) (by decide) (by decide)).1
  exact this.trans (by decide)

/-! ## C6: idempotency of whitespace normalization -/

theorem noLongRun_of_infix {m : Nat} {l l' : List Char} (h : noLongRun m l)
    (hinf : l' <:+: l) : noLongRun m l' :=
  fun hx => h (hx.trans hinf)

theorem noLongRun_replicate {m j : Nat} (hj : j ≤ m + 1) :
    noLongRun m (List.replicate j '\n') := by
  intro hx
  have hlen := hx.sublist.length_le
  simp only [List.length_replicate] at hlen
  omega

theorem noLongRun_cons {m : Nat} {c : Char} {l : List Char} (hc : c ≠ '\n')
    (h : noLongRun m l) : noLongRun m (c :: l) := by
  rintro ⟨s, t, hst⟩
  cases s with
  | nil =>
    rw [List.nil_append] at hst
    rw [show List.replicate (m + 2) '\n' = '\n' :: List.replicate (m + 1) '\n' from rfl,
      List.cons_append] at hst
    injection hst with h1 h2
    exact hc h1.symm
  | cons a s' =>
    rw [List.cons_append, List.cons_append] at hst
    injection hst with h1 h2
    exact h ⟨s', t, h2⟩

theorem noLongRun_run_append {m j : Nat} {y : List Char} (hj : j ≤ m + 1)
    (hy : y.head? ≠ some '\n') (h : noLongRun m y) :
    noLongRun m (List.replicate j '\n' ++ y) := by
  rintro ⟨s, t, hst⟩
  rw [List.append_assoc] at hst
  rcases List.append_eq_append_iff.mp hst with ⟨a', hc, hb⟩ | ⟨c', hs2, hdy⟩
  · -- the run part of the content splits as s ++ a'
    have ha'len : a'.length ≤ j := by
      have := congrArg List.length hc
      simp only [List.length_replicate, List.length_append] at this
      omega
    rcases List.append_eq_append_iff.mp hb.symm with ⟨b', hb1, hb2⟩ | ⟨c', hc1, hy2⟩
    · have hlen := congrArg List.length hb1
      simp only [List.length_replicate, List.length_append] at hlen
      cases hb' : b' with
      | nil =>
        subst hb'
        simp only [List.length_nil] at hlen
        omega
      | cons d b'' =>
        subst hb'
        have hd : d = '\n' := by
          apply List.eq_of_mem_replicate (n := m + 2) (a := '\n')
          rw [hb1]
          exact List.mem_append_right _ (List.mem_cons_self _ _)
        rw [hb2, hd] at hy
        simp at hy
    · -- a' would have to contain the whole match, but it is too short
      have hlen2 := congrArg List.length hc1
      simp only [List.length_append, List.length_replicate] at hlen2
      omega
  · exact h ⟨c', t, by rw [hdy, List.append_assoc]⟩

theorem emitRun_spec (m pending : Nat) :
    ∃ j, j ≤ m + 1 ∧ emitRun m pending = List.replicate j '\n' := by
  unfold emitRun
  split_ifs with h
  · exact ⟨m + 1, le_refl _, rfl⟩
  · exact ⟨pending, by omega, rfl⟩

/-- The collapse pass leaves no run of `m + 2` newlines in its output. -/
theorem collapseGo_noLong (m : Nat) : ∀ (cs : List Char) (pending : Nat),
    noLongRun m (collapseGo m pending cs) := by
  intro cs
  induction cs with
  | nil =>
    intro pending
    obtain ⟨j, hj, he⟩ := emitRun_spec m pending
    rw [show collapseGo m pending [] = emitRun m pending from rfl, he]
    exact noLongRun_replicate hj
  | cons c cs ih =>
    intro pending
    by_cases hc : c = '\n'
    · rw [show collapseGo m pending (c :: cs) = collapseGo m (pending + 1) cs from by
        simp [collapseGo, hc]]
      exact ih (pending + 1)
    · rw [show collapseGo m pending (c :: cs) =
          emitRun m pending ++ c :: collapseGo m 0 cs from by
        simp [collapseGo, hc]]
      obtain ⟨j, hj, he⟩ := emitRun_spec m pending
      rw [he]
      apply noLongRun_run_append hj
      · simp [hc]
      · exact noLongRun_cons hc (ih 0)

/-- On content with no long newline run, the collapse pass only replays
the pending run and copies the rest verbatim. -/
theorem collapseGo_id (m : Nat) : ∀ (cs : List Char) (pending : Nat),
    pending + (cs.takeWhile (fun c => c = '\n')).length ≤ m + 1 →
    noLongRun m cs →
    collapseGo m pending cs = List.replicate pending '\n' ++ cs := by
  intro cs
  induction cs with
  | nil =>
    intro pending hp _
    simp only [List.takeWhile_nil, List.length_nil] at hp
    rw [show collapseGo m pending [] = emitRun m pending from rfl]
    unfold emitRun
    rw [if_neg (by omega)]
    simp
  | cons c cs ih =>
    intro pending hp hnl
    have hcs_noLong : noLongRun m cs :=
      noLongRun_of_infix hnl ((List.suffix_cons c cs).isInfix)
    by_cases hc : c = '\n'
    · subst hc
      rw [show collapseGo m pending ('\n' :: cs) = collapseGo m (pending + 1) cs from by
        simp [collapseGo]]
      rw [List.takeWhile_cons_of_pos (by simp)] at hp
      simp only [List.length_cons] at hp
      rw [ih (pending + 1) (by omega) hcs_noLong]
      rw [List.replicate_succ' pending '\n', List.append_assoc]
      rfl
    · rw [show collapseGo m pending (c :: cs) =
          emitRun m pending ++ c :: collapseGo m 0 cs from by
        simp [collapseGo, hc]]
      have hemit : emitRun m pending = List.replicate pending '\n' := by
        unfold emitRun
        rw [if_neg (by omega)]
      have hlead : (cs.takeWhile (fun x => x = '\n')).length ≤ m + 1 := by
        by_contra hbig
        push_neg at hbig
        apply hnl
        have hall : cs.takeWhile (fun x => x = '\n') =
            List.replicate (cs.takeWhile (fun x => x = '\n')).length '\n' := by
          apply List.eq_replicate_of_mem
          intro b hb
          have := List.mem_takeWhile_imp hb
          simpa using this
        have hpre : List.replicate (m + 2) '\n' <+: cs.takeWhile (fun x => x = '\n') := by
          rw [hall]
          refine ⟨List.replicate ((cs.takeWhile (fun x => x = '\n')).length - (m + 2)) '\n', ?_⟩
          rw [← List.replicate_add]
          congr 1
          omega
        exact ((hpre.trans (List.takeWhile_prefix _)).isInfix).trans
          ((List.suffix_cons c cs).isInfix)
      rw [hemit, ih 0 (by omega) hcs_noLong]
      simp

theorem stripTrailing_append_nl (x : List Char) :
    stripTrailing (x ++ ['\n']) = stripTrailing x := by
  unfold stripTrailing
  rw [List.reverse_append]
  simp only [List.reverse_cons, List.reverse_nil, List.nil_append, List.singleton_append]
  rw [List.dropWhile_cons_of_pos (by decide)]

theorem pyStrip_append_nl (x : List Char) : pyStrip (x ++ ['\n']) = pyStrip x := by
  unfold pyStrip
  rw [stripTrailing_append_nl]

theorem stripTrailing_getLast {x : List Char} {c : Char}
    (h : (stripTrailing x).getLast? = some c) : isPySpace c = false := by
  unfold stripTrailing at h
  rw [List.getLast?_reverse] at h
  have hd := List.head?_dropWhile_not isPySpace x.reverse
  rw [h] at hd
  exact hd

theorem stripTrailing_eq_self {l : List Char}
    (h : ∀ c, l.getLast? = some c → isPySpace c = false) : stripTrailing l = l := by
  unfold stripTrailing
  cases hrev : l.reverse with
  | nil =>
    have hnil : l = [] := by simpa using congrArg List.reverse hrev
    rw [hnil]
    simp
  | cons d ds =>
    have hdlast : l.getLast? = some d := by
      rw [← List.head?_reverse, hrev]
      rfl
    rw [List.dropWhile_cons_of_neg (by simp [h d hdlast])]
    rw [← hrev, List.reverse_reverse]

theorem dropWhile_idem (p : Char → Bool) (l : List Char) :
    (l.dropWhile p).dropWhile p = l.dropWhile p := by
  cases h : l.dropWhile p with
  | nil => rfl
  | cons d ds =>
    have hd := List.head?_dropWhile_not p l
    rw [h] at hd
    simp only [List.head?_cons] at hd
    rw [List.dropWhile_cons_of_neg (by simp [hd])]

theorem pyStrip_getLast {x : List Char} {c : Char}
    (h : (pyStrip x).getLast? = some c) : isPySpace c = false := by
  unfold pyStrip at h
  obtain ⟨t, ht⟩ := List.dropWhile_suffix (l := stripTrailing x) isPySpace
  apply stripTrailing_getLast (x := x)
  rw [← ht, List.getLast?_append, h]
  rfl

theorem pyStrip_idem (x : List Char) : pyStrip (pyStrip x) = pyStrip x := by
  conv_lhs => rw [pyStrip]
  rw [stripTrailing_eq_self (fun c hc => pyStrip_getLast hc)]
  unfold pyStrip
  rw [dropWhile_idem]

theorem stripTrailing_isPre (l : List Char) : stripTrailing l <+: l := by
  unfold stripTrailing
  rw [← List.reverse_suffix, List.reverse_reverse]
  exact List.dropWhile_suffix isPySpace

theorem pyStrip_isInf (l : List Char) : pyStrip l <:+: l := by
  unfold pyStrip
  exact ((List.dropWhile_suffix isPySpace).isInfix).trans (stripTrailing_isPre l).isInfix

theorem noLongRun_append_singleton {m : Nat} {s : List Char} (h : noLongRun m s)
    (hlast : s.getLast? ≠ some '\n') : noLongRun m (s ++ ['\n']) := by
  rintro ⟨u, v, huv⟩
  rcases List.eq_nil_or_concat' v with rfl | ⟨v', b, rfl⟩
  · rw [List.append_nil] at huv
    rw [show List.replicate (m + 2) '\n' =
        (List.replicate (m + 1) '\n') ++ ['\n'] from by
      rw [← List.replicate_succ']] at huv
    rw [← List.append_assoc] at huv
    obtain ⟨hu, -⟩ := List.append_inj' huv rfl
    apply hlast
    rw [← hu]
    rw [show List.replicate (m + 1) '\n' = List.replicate m '\n' ++ ['\n'] from by
      rw [← List.replicate_succ']]
    rw [← List.append_assoc, List.getLast?_concat]
  · rw [← List.append_assoc] at huv
    obtain ⟨hu, -⟩ := List.append_inj' huv rfl
    exact h ⟨u, v', hu⟩

theorem pyStrip_head {x : List Char} {c : Char}
    (h : (pyStrip x).head? = some c) : isPySpace c = false := by
  unfold pyStrip at h
  have hd := List.head?_dropWhile_not isPySpace (stripTrailing x)
  rw [h] at hd
  exact hd

/-- C6.  Whitespace normalization is idempotent for any content and any
maximum-blank count ≥ 1, and its output ends with exactly one trailing
newline. -/
theorem claim_C6 (content : List Char) (m : Nat) (hm : 1 ≤ m) :
    normalize_whitespace (normalize_whitespace content m) m =
      normalize_whitespace content m ∧
    ∃ s, normalize_whitespace content m = s ++ ['\n'] ∧ s.getLast? ≠ some '\n' := by
  have hslast : (pyStrip (collapseBlankRuns m content)).getLast? ≠ some '\n' := by
    intro h
    have := pyStrip_getLast h
    simp [isPySpace] at this
  constructor
  · have hnl1 : noLongRun m (collapseBlankRuns m content) := collapseGo_noLong m content 0
    have hnl2 : noLongRun m (pyStrip (collapseBlankRuns m content)) :=
      noLongRun_of_infix hnl1 (pyStrip_isInf _)
    have hnl3 : noLongRun m (pyStrip (collapseBlankRuns m content) ++ ['\n']) :=
      noLongRun_append_singleton hnl2 hslast
    have htake :
        ((pyStrip (collapseBlankRuns m content) ++ ['\n']).takeWhile
          (fun c => c = '\n')).length ≤ m + 1 := by
      cases hs : pyStrip (collapseBlankRuns m content) with
      | nil => simp
      | cons h0 t0 =>
        have hh : isPySpace h0 = false := pyStrip_head (by rw [hs]; rfl)
        have hh' : ¬ (h0 = '\n') := by
          intro hx
          rw [hx] at hh
          simp [isPySpace] at hh
        rw [List.cons_append, List.takeWhile_cons_of_neg (by simp [hh'])]
        simp
    have hcol : collapseBlankRuns m (pyStrip (collapseBlankRuns m content) ++ ['\n']) =
        pyStrip (collapseBlankRuns m content) ++ ['\n'] := by
      rw [show collapseBlankRuns m (pyStrip (collapseBlankRuns m content) ++ ['\n']) =
          collapseGo m 0 (pyStrip (collapseBlankRuns m content) ++ ['\n']) from rfl]
      rw [collapseGo_id m _ 0 (by simpa using htake) hnl3]
      simp
    calc normalize_whitespace (normalize_whitespace content m) m
        = pyStrip (collapseBlankRuns m
            (pyStrip (collapseBlankRuns m content) ++ ['\n'])) ++ ['\n'] := rfl
      _ = pyStrip (pyStrip (collapseBlankRuns m content) ++ ['\n']) ++ ['\n'] := by
          rw [hcol]
      _ = pyStrip (pyStrip (collapseBlankRuns m content)) ++ ['\n'] := by
          rw [pyStrip_append_nl]
      _ = pyStrip (collapseBlankRuns m content) ++ ['\n'] := by
          rw [pyStrip_idem]
      _ = normalize_whitespace content m := rfl
  · exact ⟨pyStrip (collapseBlankRuns m content), rfl, hslast⟩

/-- Witness for C6 at a concrete content. -/
theorem claim_C6_witness :
    normalize_whitespace (normalize_whitespace "a\n\n\n\n\nb\n\n".data 2) 2 =
      normalize_whitespace "a\n\n\n\n\nb\n\n".data 2 ∧
    normalize_whitespace "a\n\n\n\n\nb\n\n".data 2 = "a\n\n\nb".data ++ ['\n'] := by
  obtain ⟨h1, -⟩ := claim_C6 "a\n\n\n\n\nb\n\n".data 2 (by decide)
  exact ⟨h1, by decide⟩

end DocMerger
